import Mathlib

/-!
Verification of the dependency-resolving build queue engine of pmbootstrap
(`pmb/build/_package.py` and the helpers it uses).

The code is embedded shallowly: Python dicts parsed from APKBUILD files
become the `Apkbuild` structure, the module-global `_package_cache` and the
`build_queue`/`built_packages` closure state become the `BuildState`
structure threaded explicitly, Python exceptions become an `Except` whose
error also carries the state (the Python cache is a module global which
survives a raised exception).  Collaborators that live outside the embedded
module (binary package index, architecture autodetection, the necessity
oracle) are fields of an `Env` structure.
-/

namespace Pmb

/-- Parsed APKBUILD metadata, the fields read by the build queue engine
(`pmb.parse.apkbuild` output as consumed by `pmb/build/_package.py`).
`subpackages` holds the keys of the subpackages dict (only the keys are
read by `get_depends`). -/
structure Apkbuild where
  pkgname : String
  pkgver : String
  pkgrel : String
  arch : List String
  depends : List String
  makedepends : List String
  checkdepends : List String
  options : List String
  subpackages : List String
deriving DecidableEq, Repr

/-- The flags of `pmb.core.context.Context` read by the engine. -/
structure Context where
  ignore_depends : Bool
  no_depends : Bool
deriving DecidableEq, Repr

/-- The characters before the first occurrence of `sep` in a character
list, or none when `sep` does not occur (Python's `sep in s` plus
`s.split(sep)[0]`, written structurally so that proofs can evaluate it). -/
def before_first (sep : List Char) : List Char → Option (List Char)
  | [] => if sep.isPrefixOf [] then some [] else none
  | c :: rest =>
    if sep.isPrefixOf (c :: rest) then some []
    else match before_first sep rest with
      | some pre => some (c :: pre)
      | none => none

/-- Python's `sub in s` on strings. -/
def str_contains (s sub : String) : Bool :=
  (before_first sub.data s.data).isSome

/-- Python's `s.split(sub)[0]` when `sub` occurs in `s`. -/
def str_before (s sub : String) : String :=
  match before_first sub.data s.data with
  | some pre => String.mk pre
  | none => s

/-- Python's `s.startswith(t)`. -/
def starts_with (s t : String) : Bool :=
  t.data.isPrefixOf s.data

/-- Python's string `<=`: code-point-wise lexicographic comparison. -/
def chars_le : List Char → List Char → Bool
  | [], _ => true
  | _ :: _, [] => false
  | c :: cs, d :: ds =>
    if c.toNat < d.toNat then true
    else if c.toNat = d.toNat then chars_le cs ds
    else false

/-- Python's `<=` on strings. -/
def str_le (a b : String) : Bool :=
  chars_le a.data b.data

/-- The order `sorted` sorts by, as a relation. -/
def StrLe (a b : String) : Prop := str_le a b = true

instance : DecidableRel StrLe := fun a b => by
  unfold StrLe
  infer_instance

/-- Embeds `pmb.helpers.package.remove_operators`: strip a version-constraint
operator (first match in the source's list order, split at its first
occurrence) from a raw dependency string. -/
def remove_operators (package : String) : String :=
  match [">", ">=", "<=", "=", "<", "~"].find?
      (fun op => str_contains package op) with
  | some op => str_before package op
  | none => package

/-- Embeds `pmb.helpers.pmaports.check_arches`: is building for `arch` allowed by
the APKBUILD's arch list?  The negated entry is checked first. -/
def check_arches (arches : List String) (arch : String) : Bool :=
  if ("!" ++ arch) ∈ arches then false
  else if arch ∈ arches then true
  else if ("all" : String) ∈ arches then true
  else if ("noarch" : String) ∈ arches then true
  else false

/-- Python's `sorted(set(l))` for string lists (a sort of the deduplicated
list; on duplicate-free input every sort by a total order agrees). -/
def dedup_sort (l : List String) : List String :=
  l.dedup.insertionSort StrLe

/-- Embeds `pmb.build._package.get_depends`: makedepends, plus checkdepends unless
`!check` is in the options, plus depends unless dependency-ignoring mode is
on; deduplicated and sorted; the package's own name and its subpackage
names removed; entries starting with `!` filtered out. -/
def get_depends (ctx : Context) (apkbuild : Apkbuild) : List String :=
  let ret := apkbuild.makedepends
  let ret := if ("!check" : String) ∈ apkbuild.options then ret
             else ret ++ apkbuild.checkdepends
  let ret := if ctx.ignore_depends then ret else ret ++ apkbuild.depends
  let ret := dedup_sort ret
  let ret := (apkbuild.pkgname :: apkbuild.subpackages).foldl
      (fun r n => r.erase n) ret
  ret.filter (fun x => !(starts_with x "!"))

/-- Embeds `pmb.build._package.output_path`. -/
def output_path (arch pkgname pkgver pkgrel : String) : String :=
  arch ++ "/" ++ pkgname ++ "-" ++ pkgver ++ "-r" ++ pkgrel ++ ".apk"

/-- Embeds `pmb.build._package.is_cached_or_cache`: check whether `(arch, pkgname)`
was already decided this session; if not, mark it (before its dependencies
are expanded, to break cycles).  The Python module global `_package_cache`
(a dict keyed by the arch string holding one name list per arch) is
flattened to a single list of (arch, name) pairs. -/
def is_cached_or_cache (cache : List (String × String)) (arch pkgname : String) :
    Bool × List (String × String) :=
  if (arch, pkgname) ∈ cache then (true, cache)
  else (false, cache ++ [(arch, pkgname)])

/-- The external collaborators of `pmb/build/_package.py`.  The source
package repository (`pmb.helpers.pmaports.get` / `get_apkbuild`) is a
finite association list; the binary package index
(`pmb.parse.apkindex.package`) maps a name and an arch to the published
binary's version, if any; `providers` is `pmb.parse.apkindex.providers`
being non-empty; `autodetect_arch`/`autodetect_arch_name`/`crosscompile`
are `pmb.build.autodetect`; `outdated` abstracts the source-vs-binary
version comparison of the necessity oracle; `build_fails` models whether
the external builder (abuild) exits nonzero for a package. -/
structure Env where
  pmaports : List (String × Apkbuild)
  binary_version : String → String → Option String
  providers : String → String → Bool
  outdated : String → Apkbuild → Bool
  autodetect_arch : Apkbuild → String
  autodetect_arch_name : String → String
  crosscompile : Apkbuild → String → Option String
  native_arch : String
  build_fails : String → Bool

/-- Embeds `pmb.build._package.get_apkbuild` (the aports path component is not
modelled; no claim mentions it). -/
def get_apkbuild (env : Env) (pkgname : String) : Option Apkbuild :=
  (env.pmaports.find? (fun p => p.1 == pkgname)).map (fun p => p.2)

/-- The necessity states described for the necessity oracle. -/
inductive BuildStatus
  | NEW
  | NECESSARY
  | UNNECESSARY
deriving DecidableEq, Repr

/-- Modelled from the spec: the NecessityOracle (`pmb.build.is_necessary` /
`pmb.build.other.get_status` is not under src/).  If no binary package
exists for the name and arch the status is NEW; otherwise the source
version is compared with the published binary version (the comparator is
abstracted into `Env.outdated`): newer source means NECESSARY, else
UNNECESSARY. -/
def build_status (env : Env) (arch : String) (apkbuild : Apkbuild) : BuildStatus :=
  match env.binary_version apkbuild.pkgname arch with
  | none => BuildStatus.NEW
  | some _ => if env.outdated arch apkbuild then BuildStatus.NECESSARY
              else BuildStatus.UNNECESSARY

/-- Modelled from the spec: `pmb.build.is_necessary` as used (boolean) by
`process_package`: the package needs building unless its binary is
current. -/
def is_necessary (env : Env) (arch : String) (apkbuild : Apkbuild) : Bool :=
  build_status env arch apkbuild != BuildStatus.UNNECESSARY

/-- The exceptions raised by the engine (all `RuntimeError`s in the source
except `BuildFailedError`), plus `fuelOut` marking exhaustion of the fuel
that makes the dependency worklist loop structurally recursive. -/
inductive Err
  | unresolved (pkgname : String)
  | cantBuildForArch (pkgname arch : String)
  | missingBinary (dep parent : String)
  | outdatedBinary (dep parent : String)
  | multiPackageSrc
  | indexOutOfRange
  | buildFailed (output : String)
  | fuelOut
deriving DecidableEq, Repr

deriving instance DecidableEq for Except

/-- Embeds `pmb.build._package.check_build_for_arch`: can the pmaport be built for
`arch` (True), or does a binary fallback exist (False)?  Raises when
neither holds.  The inner `check_arch(pkgname, arch, False)` reads the
pmaport's arch list. -/
def check_build_for_arch (env : Env) (pkgname arch : String) : Except Err Bool :=
  match get_apkbuild env pkgname with
  | none => Except.error (Err.unresolved pkgname)
  | some apkbuild =>
    if check_arches apkbuild.arch arch then Except.ok true
    else if (env.binary_version pkgname arch).isSome then Except.ok false
    else Except.error (Err.cantBuildForArch pkgname arch)

/-- The `x if x is not None else d` pattern for the target architecture. -/
def arch_or (arch? : Option String) (d : String) : String :=
  match arch? with
  | some a => a
  | none => d

/-- One entry of the build queue (`BuildQueueItem`).  The fields derived
from collaborators that are out of the engine's scope (aports repo name,
channel, chroot, the apkbuild itself) are not modelled; no claim mentions
them. -/
structure Item where
  name : String
  arch : String
  depends : List String
  cross : Option String
  output : String
deriving DecidableEq, Repr

/-- The engine's mutable state: the module global `_package_cache` plus the
`build_queue` and `built_packages` locals of `packages()` that the
`queue_build` closure mutates. -/
structure BuildState where
  cache : List (String × String)
  build_queue : List Item
  built_packages : List String
deriving DecidableEq, Repr

/-- The `queue_build` closure defined inside `packages()`: skip when an
item with the same name is already queued, otherwise append one item
(arch/cross autodetected when absent) and record the name in
`built_packages` when it was explicitly requested. -/
def queue_build (env : Env) (pkgnames : List String) (arch? : Option String)
    (st : BuildState) (apkbuild : Apkbuild) (depends : List String)
    (cross : Option String) : BuildState :=
  if st.build_queue.any (fun item => item.name == apkbuild.pkgname) then st
  else
    let pkg_arch := arch_or arch? (env.autodetect_arch apkbuild)
    let crossv := match cross with
      | some c => some c
      | none => env.crosscompile apkbuild pkg_arch
    { cache := st.cache
      build_queue := st.build_queue ++
        [{ name := apkbuild.pkgname
           arch := pkg_arch
           depends := depends
           cross := crossv
           output := output_path pkg_arch apkbuild.pkgname apkbuild.pkgver
               apkbuild.pkgrel }]
      built_packages :=
        if apkbuild.pkgname ∈ pkgnames then
          (if apkbuild.pkgname ∈ st.built_packages then st.built_packages
           else st.built_packages ++ [apkbuild.pkgname])
        else st.built_packages }

/-- The dependency worklist loop of `process_package` (the `while
len(depends)` loop): pop a dependency, mark it in the session cache (skip
when already marked), resolve its APKBUILD (skip when absent), apply the
`--no-depends` checks, and when it needs building enqueue it (only if the
base package is marked for build) and splice its own dependencies onto the
front of the worklist.  `fuel` makes the recursion structural; a raised
exception carries the state, since the Python cache is a module global
that survives the exception. -/
def dep_loop (env : Env) (ctx : Context) (pkgnames : List String)
    (arch? : Option String) (will_build_base : Bool) (arch : String) :
    Nat → BuildState → String → List String →
    Except (Err × BuildState) (BuildState × List String)
  | 0, st, _, _ => Except.error (Err.fuelOut, st)
  | _ + 1, st, _, [] => Except.ok (st, [])
  | fuel + 1, st, parent, dep :: rest =>
    let mark := is_cached_or_cache st.cache arch (remove_operators dep)
    let st : BuildState := { st with cache := mark.2 }
    if mark.1 then
      dep_loop env ctx pkgnames arch? will_build_base arch fuel st parent rest
    else
      match get_apkbuild env dep with
      | none =>
        dep_loop env ctx pkgnames arch? will_build_base arch fuel st parent rest
      | some apkbuild =>
        let cross : Option String :=
          if ctx.no_depends then env.crosscompile apkbuild arch else none
        let dep_arch := if cross == some "native" then env.native_arch else arch
        if ctx.no_depends && (env.binary_version dep dep_arch).isNone then
          Except.error (Err.missingBinary dep parent, st)
        else if is_necessary env arch apkbuild then
          if ctx.no_depends then
            Except.error (Err.outdatedBinary dep parent, st)
          else
            let deps := get_depends ctx apkbuild
            let st := if will_build_base then
                queue_build env pkgnames arch? st apkbuild deps cross
              else st
            dep_loop env ctx pkgnames arch? will_build_base arch fuel st dep
              (deps ++ rest)
        else
          dep_loop env ctx pkgnames arch? will_build_base arch fuel st parent rest

/-- The decision whether the base package itself will be built
(`will_build_base` in `process_package`): necessity-or-force short-circuit
conjoined with `check_build_for_arch`, which can raise. -/
def wbb_except (env : Env) (pkgname arch : String) (base_apkbuild : Apkbuild)
    (force : Bool) : Except Err Bool :=
  if is_necessary env arch base_apkbuild || force then
    check_build_for_arch env pkgname arch
  else Except.ok false

/-- Embeds `pmb.build._package.process_package`: resolve the base package (binary
providers satisfy it externally; otherwise unresolvable is fatal),
autodetect the arch, consult/mark the session cache, compute the
dependency list, decide `will_build_base` (necessity or force, and
buildable for the arch), run the dependency worklist loop, and finally
queue the base package itself after its dependencies. -/
def process_package (env : Env) (ctx : Context) (pkgnames : List String)
    (fuel : Nat) (st : BuildState) (pkgname : String) (arch? : Option String)
    (fallback_arch : String) (force : Bool) :
    Except (Err × BuildState) (BuildState × List String) :=
  match get_apkbuild env pkgname with
  | none =>
    if env.providers pkgname fallback_arch then Except.ok (st, [])
    else Except.error (Err.unresolved pkgname, st)
  | some base_apkbuild =>
    let arch := arch_or arch? (env.autodetect_arch base_apkbuild)
    let mark := is_cached_or_cache st.cache arch pkgname
    let st : BuildState := { st with cache := mark.2 }
    if mark.1 && !force then Except.ok (st, [])
    else
      let depends := get_depends ctx base_apkbuild
      match wbb_except env pkgname arch base_apkbuild force with
      | Except.error e => Except.error (e, st)
      | Except.ok will_build_base =>
        match dep_loop env ctx pkgnames arch? will_build_base arch fuel st
            pkgname depends with
        | Except.error es => Except.error es
        | Except.ok (st, depends) =>
          let st := if will_build_base then
              queue_build env pkgnames arch? st base_apkbuild depends none
            else st
          Except.ok (st, depends)

/-- The `for pkgname in pkgnames` loop of `packages()`, accumulating
`all_dependencies`. -/
def process_roots (env : Env) (ctx : Context) (pkgnames : List String)
    (arch? : Option String) (fallback_arch : String) (force : Bool)
    (fuel : Nat) :
    BuildState → List String → List String →
    Except (Err × BuildState) (BuildState × List String)
  | st, acc, [] => Except.ok (st, acc)
  | st, acc, p :: rest =>
    match process_package env ctx pkgnames fuel st p arch? fallback_arch force with
    | Except.error es => Except.error es
    | Except.ok (st, deps) =>
      process_roots env ctx pkgnames arch? fallback_arch force fuel st
        (acc ++ deps) rest

/-- The build execution loop of `packages()` (`while len(build_queue)`):
pop the front item and invoke the external builder; a builder failure is
wrapped into `BuildFailedError` naming the expected output artifact.
Returns the names built so far, in order, and the failure if any.  The
chroot initialization and dependency installation steps are external side
effects with no observable state in this model. -/
def run_queue (env : Env) : List Item → List String → List String × Option Err
  | [], acc => (acc, none)
  | pkg :: rest, acc =>
    if env.build_fails pkg.name then (acc, some (Err.buildFailed pkg.output))
    else run_queue env rest (acc ++ [pkg.name])

/-- Everything observable about one `packages()` invocation: its return
value or raised exception, the module-global `_package_cache` after the
call (the global survives exceptions), the names in the finalized build
queue (as the source logs them), and the order packages were actually
built in. -/
structure PackagesTrace where
  result : Except Err (List String)
  cache : List (String × String)
  queue_names : List String
  exec_order : List String
deriving Repr

/-- The fallback architecture of `packages()`: the explicit arch if given,
else the autodetected arch of the first requested name (Python raises
IndexError on an empty request list there). -/
def fallback_arch_except (env : Env) (arch? : Option String)
    (pkgnames : List String) : Except Err String :=
  match arch? with
  | some a => Except.ok a
  | none => match pkgnames with
    | [] => Except.error Err.indexOutOfRange
    | p :: _ => Except.ok (env.autodetect_arch_name p)

/-- Embeds `pmb.build._package.packages`: the top-level entry point.  `cache0` is
the content of the module-global `_package_cache` when the call starts. -/
def packages (env : Env) (ctx : Context) (fuel : Nat)
    (cache0 : List (String × String)) (pkgnames : List String)
    (arch? : Option String) (force src : Bool) : PackagesTrace :=
  let st0 : BuildState :=
    { cache := cache0, build_queue := [], built_packages := [] }
  if src && pkgnames.length > 1 then
    { result := Except.error Err.multiPackageSrc, cache := cache0
      queue_names := [], exec_order := [] }
  else
    match fallback_arch_except env arch? pkgnames with
    | Except.error e =>
      { result := Except.error e, cache := cache0
        queue_names := [], exec_order := [] }
    | Except.ok fallback_arch =>
      match process_roots env ctx pkgnames arch? fallback_arch force fuel st0
          [] pkgnames with
      | Except.error (e, st) =>
        { result := Except.error e, cache := st.cache
          queue_names := st.build_queue.map (fun i => i.name), exec_order := [] }
      | Except.ok (st, _all_dependencies) =>
        if st.build_queue.length = 0 then
          { result := Except.ok [], cache := st.cache
            queue_names := [], exec_order := [] }
        else
          match run_queue env st.build_queue [] with
          | (acc, some e) =>
            { result := Except.error e, cache := st.cache
              queue_names := st.build_queue.map (fun i => i.name)
              exec_order := acc }
          | (acc, none) =>
            { result := Except.ok st.built_packages, cache := []
              queue_names := st.build_queue.map (fun i => i.name)
              exec_order := acc }

/-! Derived notions used to state the claims. -/

/-- The names of the queued items, in queue order. -/
def queue_names (q : List Item) : List String :=
  q.map (fun i => i.name)

/-- The engine state after a call, whether it returned or raised (the
Python session cache is a module global, so it survives exceptions). -/
def out_state : Except (Err × BuildState) (BuildState × List String) → BuildState
  | Except.ok (st, _) => st
  | Except.error (_, st) => st

/-- Whether a call failed only because the modelling fuel ran out (no
Python counterpart: the Python loop just runs). -/
def is_fuel_out : Except (Err × BuildState) (BuildState × List String) → Bool
  | Except.error (Err.fuelOut, _) => true
  | _ => false

/-- The state after the session cache marks the stripped name of a popped
dependency (the first thing an iteration of the worklist loop does to a
not-yet-visited dependency). -/
def marked (st : BuildState) (arch dep : String) : BuildState :=
  { st with cache := st.cache ++ [(arch, remove_operators dep)] }

/-- Whether a worklist-loop or `process_package` call returned rather than
raised. -/
def run_ok (r : Except (Err × BuildState) (BuildState × List String)) : Bool :=
  match r with
  | Except.ok _ => true
  | Except.error _ => false

/-- A source package repository is well formed when each association entry
is keyed by the pkgname of its APKBUILD, i.e. dependency names resolve to
packages of that very name (no subpackage aliasing). -/
def WellFormedAports (env : Env) : Prop :=
  ∀ p ∈ env.pmaports, p.2.pkgname = p.1

instance (env : Env) : Decidable (WellFormedAports env) := by
  unfold WellFormedAports
  infer_instance

/-- The session-cache keys a dependency worklist run can still add for
`arch`: names are always cached through `remove_operators`. -/
def strippedF (l : List String) : Finset String :=
  (l.map remove_operators).toFinset

/-- All names that any dependency list of the source repository can put on
the worklist, stripped of version operators. -/
def env_pool (env : Env) (ctx : Context) : Finset String :=
  env.pmaports.foldr (fun p acc => strippedF (get_depends ctx p.2) ∪ acc) ∅

/-- An upper bound on the length of any dependency list the worklist loop
can splice in. -/
def max_deps (env : Env) (ctx : Context) : Nat :=
  env.pmaports.foldr (fun p acc => max (get_depends ctx p.2).length acc) 0

/-- The names cached for `arch`. -/
def cached_names (arch : String) (cache : List (String × String)) : Finset String :=
  ((cache.filter (fun e => e.1 == arch)).map (fun e => e.2)).toFinset

/-- Decreasing measure of the dependency worklist loop: uncached
potentially-reachable names weighted by the worst-case splice length, plus
the worklist length. -/
def dep_measure (env : Env) (ctx : Context) (arch : String)
    (cache : List (String × String)) (work : List String) : Nat :=
  ((strippedF work ∪ env_pool env ctx) \ cached_names arch cache).card *
    (max_deps env ctx + 1) + work.length

/-- Fuel that lets `dep_loop` run any worklist made of dependency lists of
the repository to completion. -/
def enough_fuel (env : Env) (ctx : Context) : Nat :=
  ((env_pool env ctx).card + 1) * (max_deps env ctx + 1) + 1

/-- The dependency-list formula as the spec sentence for C8 states it (for
comparison with `get_depends`, which embeds the source): the union of
makedepends, checkdepends (only when the !check option is absent), and
depends (only when dependency-ignoring mode is off), deduplicated and
sorted, with the package's own name and all of its subpackage names
removed.  The sentence says nothing about `!`-prefixed entries. -/
def get_depends_claimed (ctx : Context) (apkbuild : Apkbuild) : List String :=
  let u := apkbuild.makedepends
      ++ (if ("!check" : String) ∈ apkbuild.options then [] else apkbuild.checkdepends)
      ++ (if ctx.ignore_depends then [] else apkbuild.depends)
  (dedup_sort u).filter
    (fun x => !((apkbuild.pkgname :: apkbuild.subpackages).contains x))

/-! Concrete environments used to evaluate the engine at specific inputs. -/

/-- An APKBUILD with only makedepends, buildable everywhere. -/
def apkb (name : String) (makedepends : List String) : Apkbuild :=
  { pkgname := name, pkgver := "1", pkgrel := "0", arch := ["all"]
    depends := [], makedepends := makedepends, checkdepends := []
    options := [], subpackages := [] }

/-- An environment over a given source repository and binary index; the
native arch is x86_64, nothing cross-compiles, no build fails. -/
def mk_env (aports : List (String × Apkbuild)) (bins : List (String × String)) : Env :=
  { pmaports := aports
    binary_version := fun n _ => (bins.find? (fun p => p.1 == n)).map (fun p => p.2)
    providers := fun _ _ => false
    outdated := fun _ _ => false
    autodetect_arch := fun _ => "x86_64"
    autodetect_arch_name := fun _ => "x86_64"
    crosscompile := fun _ _ => none
    native_arch := "x86_64"
    build_fails := fun _ => false }

/-- Default context: dependencies neither ignored nor forbidden. -/
def ctx0 : Context := { ignore_depends := false, no_depends := false }

/-- Context with the no-depends mode active. -/
def ctx_nd : Context := { ignore_depends := false, no_depends := true }

/-- A two-level dependency chain: a makedepends b, b makedepends c, and no
binary package exists anywhere (every package is brand-new). -/
def chain_env : Env :=
  mk_env [("a", apkb "a" ["b"]), ("b", apkb "b" ["c"]), ("c", apkb "c" [])] []

/-- Root r (binary current, hence UNNECESSARY) with dependency d that has
no binary at all (hence NEW). -/
def prop_env : Env :=
  mk_env [("r", apkb "r" ["d"]), ("d", apkb "d" [])] [("r", "1-r0")]

/-- Package a depends on ghost, which has neither an APKBUILD nor a binary
package anywhere. -/
def ghost_env : Env :=
  mk_env [("a", apkb "a" ["ghost"])] []

/-- Package a depends on b; a has no binary, b has neither a binary nor a
current one. -/
def nd_env : Env :=
  mk_env [("a", apkb "a" ["b"]), ("b", apkb "b" [])] []

/-- The empty engine state. -/
def st_empty : BuildState :=
  { cache := [], build_queue := [], built_packages := [] }

/-- A sample queued item, used to evaluate the dedup guard at a state
whose queue already holds an item named b. -/
def sample_item : Item :=
  { name := "b", arch := "x86_64", depends := [], cross := none, output := "o" }

/-- A state whose queue already holds `sample_item`. -/
def sample_state : BuildState :=
  { cache := [], build_queue := [sample_item], built_packages := [] }

/-- A dependency cycle: x makedepends y and y makedepends x, no binaries
anywhere. -/
def cyc_env : Env :=
  mk_env [("x", apkb "x" ["y"]), ("y", apkb "y" ["x"])] []

/-- An APKBUILD whose makedepends holds a conflict entry. -/
def bang_apkb : Apkbuild :=
  { pkgname := "p", pkgver := "1", pkgrel := "0", arch := ["all"]
    depends := [], makedepends := ["!c"], checkdepends := []
    options := [], subpackages := [] }

/-! General lemmas about the embedded operations. -/

theorem dedup_sort_nodup (l : List String) : (dedup_sort l).Nodup :=
  (List.perm_insertionSort StrLe l.dedup).nodup_iff.mpr (List.nodup_dedup l)

theorem foldl_erase_eq_filter :
    ∀ (names : List String) (l : List String), l.Nodup →
      names.foldl (fun r n => r.erase n) l =
        l.filter (fun x => !(names.contains x)) := by
  intro names
  induction names with
  | nil => intro l _; simp
  | cons n ns ih =>
    intro l hl
    have h1 : (n :: ns).foldl (fun r n => r.erase n) l =
        ns.foldl (fun r n => r.erase n) (l.erase n) := by
      simp [List.foldl_cons]
    rw [h1, ih (l.erase n) (hl.erase n), hl.erase_eq_filter n,
      List.filter_filter]
    congr 1
    funext x
    by_cases hx : x = n
    · subst hx; simp
    · simp [hx, Ne.symm hx]

theorem any_name_eq_true (q : List Item) (n : String) :
    (q.any (fun item => item.name == n) = true) ↔ n ∈ queue_names q := by
  rw [List.any_eq_true]
  unfold queue_names
  rw [List.mem_map]
  constructor
  · rintro ⟨i, hi, hb⟩
    exact ⟨i, hi, by simpa using hb⟩
  · rintro ⟨i, hi, hb⟩
    exact ⟨i, hi, by simp [hb]⟩

theorem queue_build_cache (env : Env) (pkgnames : List String)
    (arch? : Option String) (st : BuildState) (apkbuild : Apkbuild)
    (depends : List String) (cross : Option String) :
    (queue_build env pkgnames arch? st apkbuild depends cross).cache = st.cache := by
  by_cases hq : (st.build_queue.any fun item => item.name == apkbuild.pkgname) = true
  · unfold queue_build; rw [if_pos hq]
  · unfold queue_build; rw [if_neg hq]

theorem queue_build_mem_noop (env : Env) (pkgnames : List String)
    (arch? : Option String) (st : BuildState) (apkbuild : Apkbuild)
    (depends : List String) (cross : Option String)
    (h : apkbuild.pkgname ∈ queue_names st.build_queue) :
    queue_build env pkgnames arch? st apkbuild depends cross = st := by
  unfold queue_build
  rw [if_pos ((any_name_eq_true st.build_queue apkbuild.pkgname).mpr h)]

theorem queue_build_names (env : Env) (pkgnames : List String)
    (arch? : Option String) (st : BuildState) (apkbuild : Apkbuild)
    (depends : List String) (cross : Option String) :
    queue_names (queue_build env pkgnames arch? st apkbuild depends cross).build_queue
      = queue_names st.build_queue ∨
    (apkbuild.pkgname ∉ queue_names st.build_queue ∧
      queue_names (queue_build env pkgnames arch? st apkbuild depends cross).build_queue
        = queue_names st.build_queue ++ [apkbuild.pkgname]) := by
  by_cases hq : (st.build_queue.any fun item => item.name == apkbuild.pkgname) = true
  · left; unfold queue_build; rw [if_pos hq]
  · right
    refine ⟨fun hmem => hq ((any_name_eq_true st.build_queue apkbuild.pkgname).mpr hmem), ?_⟩
    unfold queue_build; rw [if_neg hq]
    simp [queue_names]

theorem queue_build_mem (env : Env) (pkgnames : List String)
    (arch? : Option String) (st : BuildState) (apkbuild : Apkbuild)
    (depends : List String) (cross : Option String) :
    apkbuild.pkgname ∈
      queue_names (queue_build env pkgnames arch? st apkbuild depends cross).build_queue := by
  by_cases hq : (st.build_queue.any fun item => item.name == apkbuild.pkgname) = true
  · unfold queue_build; rw [if_pos hq]
    exact (any_name_eq_true st.build_queue apkbuild.pkgname).mp hq
  · unfold queue_build; rw [if_neg hq]
    simp [queue_names]

theorem queue_build_names_nodup (env : Env) (pkgnames : List String)
    (arch? : Option String) (st : BuildState) (apkbuild : Apkbuild)
    (depends : List String) (cross : Option String)
    (h : (queue_names st.build_queue).Nodup) :
    (queue_names (queue_build env pkgnames arch? st apkbuild depends cross).build_queue).Nodup := by
  rcases queue_build_names env pkgnames arch? st apkbuild depends cross with he | ⟨hnot, he⟩
  · rw [he]; exact h
  · rw [he]
    simp [List.nodup_append, h, hnot]

theorem queue_build_built_inv (env : Env) (pkgnames : List String)
    (arch? : Option String) (st : BuildState) (apkbuild : Apkbuild)
    (depends : List String) (cross : Option String)
    (h : ∀ x, x ∈ st.built_packages ↔ x ∈ pkgnames ∧ x ∈ queue_names st.build_queue) :
    ∀ x, x ∈ (queue_build env pkgnames arch? st apkbuild depends cross).built_packages ↔
      x ∈ pkgnames ∧
      x ∈ queue_names (queue_build env pkgnames arch? st apkbuild depends cross).build_queue := by
  intro x
  by_cases hq : (st.build_queue.any fun item => item.name == apkbuild.pkgname) = true
  · unfold queue_build; rw [if_pos hq]; exact h x
  · unfold queue_build; rw [if_neg hq]
    dsimp only
    by_cases hx : x = apkbuild.pkgname
    · subst hx
      by_cases hreq : apkbuild.pkgname ∈ pkgnames
      · rw [if_pos hreq]
        constructor
        · intro _
          exact ⟨hreq, by simp [queue_names]⟩
        · intro _
          by_cases hb : apkbuild.pkgname ∈ st.built_packages
          · rw [if_pos hb]; exact hb
          · rw [if_neg hb]; simp
      · rw [if_neg hreq]
        constructor
        · intro hmem
          exact absurd ((h _).mp hmem).1 hreq
        · rintro ⟨h1, _⟩
          exact absurd h1 hreq
    · by_cases hreq : apkbuild.pkgname ∈ pkgnames
      · by_cases hb : apkbuild.pkgname ∈ st.built_packages
        · rw [if_pos hreq, if_pos hb, h x]
          simp [queue_names, hx]
        · rw [if_pos hreq, if_neg hb]
          constructor
          · intro hmem
            rcases List.mem_append.mp hmem with hm | hm
            · have h2 := (h x).mp hm
              exact ⟨h2.1, by simp [queue_names, hx] at *; exact h2.2⟩
            · simp at hm; exact absurd hm hx
          · rintro ⟨h1, h2⟩
            apply List.mem_append.mpr; left
            apply (h x).mpr
            refine ⟨h1, ?_⟩
            simpa [queue_names, hx] using h2
      · rw [if_neg hreq, h x]
        simp [queue_names, hx]

theorem queue_build_queue_ext (env : Env) (pkgnames : List String)
    (arch? : Option String) (st : BuildState) (apkbuild : Apkbuild)
    (depends : List String) (cross : Option String) :
    ∃ qext, (queue_build env pkgnames arch? st apkbuild depends cross).build_queue
      = st.build_queue ++ qext := by
  by_cases hq : (st.build_queue.any fun item => item.name == apkbuild.pkgname) = true
  · exact ⟨[], by unfold queue_build; rw [if_pos hq]; simp⟩
  · unfold queue_build
    rw [if_neg hq]
    exact ⟨_, rfl⟩

/-- Exhaustive description of one iteration of the dependency worklist
loop, used by every induction over `dep_loop`. -/
theorem dep_loop_cons_cases (env : Env) (ctx : Context) (pkgnames : List String)
    (arch? : Option String) (wbb : Bool) (arch : String) (f : Nat)
    (st : BuildState) (parent dep : String) (rest : List String) :
    ((arch, remove_operators dep) ∈ st.cache ∧
      dep_loop env ctx pkgnames arch? wbb arch (f + 1) st parent (dep :: rest) =
        dep_loop env ctx pkgnames arch? wbb arch f st parent rest) ∨
    ((arch, remove_operators dep) ∉ st.cache ∧
      ((get_apkbuild env dep = none ∧
        dep_loop env ctx pkgnames arch? wbb arch (f + 1) st parent (dep :: rest) =
          dep_loop env ctx pkgnames arch? wbb arch f (marked st arch dep) parent rest) ∨
      (∃ apkbuild, get_apkbuild env dep = some apkbuild ∧
        ((ctx.no_depends = true ∧
          ((∃ e, (e = Err.missingBinary dep parent ∨ e = Err.outdatedBinary dep parent) ∧
            dep_loop env ctx pkgnames arch? wbb arch (f + 1) st parent (dep :: rest) =
              Except.error (e, marked st arch dep)) ∨
          dep_loop env ctx pkgnames arch? wbb arch (f + 1) st parent (dep :: rest) =
            dep_loop env ctx pkgnames arch? wbb arch f (marked st arch dep) parent rest)) ∨
        (ctx.no_depends = false ∧
          ((is_necessary env arch apkbuild = false ∧
            dep_loop env ctx pkgnames arch? wbb arch (f + 1) st parent (dep :: rest) =
              dep_loop env ctx pkgnames arch? wbb arch f (marked st arch dep) parent rest) ∨
          (is_necessary env arch apkbuild = true ∧
            dep_loop env ctx pkgnames arch? wbb arch (f + 1) st parent (dep :: rest) =
              dep_loop env ctx pkgnames arch? wbb arch f
                (if wbb then
                  queue_build env pkgnames arch? (marked st arch dep) apkbuild
                    (get_depends ctx apkbuild) none
                 else marked st arch dep)
                dep (get_depends ctx apkbuild ++ rest)))))))) := by
  by_cases hc : (arch, remove_operators dep) ∈ st.cache
  · left
    exact ⟨hc, by simp [dep_loop, is_cached_or_cache, hc]⟩
  · right
    refine ⟨hc, ?_⟩
    cases hga : get_apkbuild env dep with
    | none =>
      left
      exact ⟨rfl, by simp [dep_loop, is_cached_or_cache, hc, hga, marked]⟩
    | some apkbuild =>
      right
      refine ⟨apkbuild, rfl, ?_⟩
      by_cases hnd : ctx.no_depends = true
      · left
        refine ⟨hnd, ?_⟩
        by_cases hbin : env.binary_version dep
            (if env.crosscompile apkbuild arch = some "native" then env.native_arch
             else arch) = none
        · left
          exact ⟨Err.missingBinary dep parent, Or.inl rfl,
            by simp [dep_loop, is_cached_or_cache, hc, hga, hnd, hbin, marked]⟩
        · by_cases hnec : is_necessary env arch apkbuild = true
          · left
            exact ⟨Err.outdatedBinary dep parent, Or.inr rfl,
              by simp [dep_loop, is_cached_or_cache, hc, hga, hnd, hbin, hnec, marked]⟩
          · right
            simp only [Bool.not_eq_true] at hnec
            simp [dep_loop, is_cached_or_cache, hc, hga, hnd, hbin, hnec, marked]
      · right
        simp only [Bool.not_eq_true] at hnd
        refine ⟨hnd, ?_⟩
        by_cases hnec : is_necessary env arch apkbuild = true
        · right
          exact ⟨hnec,
            by simp [dep_loop, is_cached_or_cache, hc, hga, hnd, hnec, marked]⟩
        · left
          simp only [Bool.not_eq_true] at hnec
          exact ⟨hnec,
            by simp [dep_loop, is_cached_or_cache, hc, hga, hnd, hnec, marked]⟩

/-- Monotonicity of the dependency worklist loop: the session cache only
grows by appended entries, the build queue only grows by appended items,
and it does not grow at all when the base package is not marked for build
or the no-depends mode is active. -/
theorem dep_loop_state (env : Env) (ctx : Context) (pkgnames : List String)
    (arch? : Option String) (wbb : Bool) (arch : String) :
    ∀ (fuel : Nat) (st : BuildState) (parent : String) (work : List String),
      (∃ ext, (out_state (dep_loop env ctx pkgnames arch? wbb arch fuel st parent work)).cache
          = st.cache ++ ext) ∧
      (∃ qext, (out_state (dep_loop env ctx pkgnames arch? wbb arch fuel st parent work)).build_queue
          = st.build_queue ++ qext) ∧
      ((wbb = false ∨ ctx.no_depends = true) →
        (out_state (dep_loop env ctx pkgnames arch? wbb arch fuel st parent work)).build_queue
          = st.build_queue) := by
  intro fuel
  induction fuel with
  | zero =>
    intro st parent work
    exact ⟨⟨[], by simp [dep_loop, out_state]⟩, ⟨[], by simp [dep_loop, out_state]⟩,
      fun _ => by simp [dep_loop, out_state]⟩
  | succ f ih =>
    intro st parent work
    cases work with
    | nil =>
      exact ⟨⟨[], by simp [dep_loop, out_state]⟩, ⟨[], by simp [dep_loop, out_state]⟩,
        fun _ => by simp [dep_loop, out_state]⟩
    | cons dep rest =>
      rcases dep_loop_cons_cases env ctx pkgnames arch? wbb arch f st parent dep rest with
        ⟨_, hL⟩ | ⟨_, hcase⟩
      · rw [hL]
        exact ih st parent rest
      · rcases hcase with ⟨_, hL⟩ | ⟨apkbuild, _, hcase⟩
        · rw [hL]
          obtain ⟨⟨ext, he⟩, ⟨qext, hq⟩, h3⟩ := ih (marked st arch dep) parent rest
          exact ⟨⟨(arch, remove_operators dep) :: ext, by rw [he]; simp [marked]⟩,
            ⟨qext, hq⟩, fun h => h3 h⟩
        · rcases hcase with ⟨hnd, herr | hL⟩ | ⟨hnd, hcase⟩
          · rcases herr with ⟨e, _, hL⟩
            rw [hL]
            exact ⟨⟨[(arch, remove_operators dep)], by simp [out_state, marked]⟩,
              ⟨[], by simp [out_state, marked]⟩,
              fun _ => by simp [out_state, marked]⟩
          · rw [hL]
            obtain ⟨⟨ext, he⟩, ⟨qext, hq⟩, h3⟩ := ih (marked st arch dep) parent rest
            exact ⟨⟨(arch, remove_operators dep) :: ext, by rw [he]; simp [marked]⟩,
              ⟨qext, hq⟩, fun h => h3 h⟩
          · rcases hcase with ⟨_, hL⟩ | ⟨_, hL⟩
            · rw [hL]
              obtain ⟨⟨ext, he⟩, ⟨qext, hq⟩, h3⟩ := ih (marked st arch dep) parent rest
              exact ⟨⟨(arch, remove_operators dep) :: ext, by rw [he]; simp [marked]⟩,
                ⟨qext, hq⟩, fun h => h3 h⟩
            · rw [hL]
              by_cases hw : wbb = true
              · rw [if_pos hw]
                obtain ⟨⟨ext, he⟩, ⟨qext, hq⟩, _⟩ :=
                  ih (queue_build env pkgnames arch? (marked st arch dep) apkbuild
                    (get_depends ctx apkbuild) none) dep (get_depends ctx apkbuild ++ rest)
                obtain ⟨qext0, hq0⟩ := queue_build_queue_ext env pkgnames arch?
                  (marked st arch dep) apkbuild (get_depends ctx apkbuild) none
                refine ⟨⟨(arch, remove_operators dep) :: ext, ?_⟩, ⟨qext0 ++ qext, ?_⟩, ?_⟩
                · rw [he, queue_build_cache]
                  simp [marked]
                · rw [hq, hq0]
                  simp [marked]
                · intro h
                  rcases h with h | h
                  · rw [hw] at h; cases h
                  · rw [hnd] at h; cases h
              · rw [if_neg hw]
                obtain ⟨⟨ext, he⟩, ⟨qext, hq⟩, h3⟩ :=
                  ih (marked st arch dep) dep (get_depends ctx apkbuild ++ rest)
                exact ⟨⟨(arch, remove_operators dep) :: ext, by rw [he]; simp [marked]⟩,
                  ⟨qext, hq⟩, fun _ => h3 (Or.inl (by simpa using hw))⟩

/-- Exhaustive description of the outcomes of `process_package`, used to
derive its properties from those of the worklist loop. -/
theorem process_package_cases (env : Env) (ctx : Context) (pkgnames : List String)
    (fuel : Nat) (st : BuildState) (pkgname : String) (arch? : Option String)
    (fallback_arch : String) (force : Bool) :
    (get_apkbuild env pkgname = none ∧ env.providers pkgname fallback_arch = true ∧
      process_package env ctx pkgnames fuel st pkgname arch? fallback_arch force
        = Except.ok (st, [])) ∨
    (get_apkbuild env pkgname = none ∧ env.providers pkgname fallback_arch = false ∧
      process_package env ctx pkgnames fuel st pkgname arch? fallback_arch force
        = Except.error (Err.unresolved pkgname, st)) ∨
    (∃ base arch, get_apkbuild env pkgname = some base ∧
      arch = arch_or arch? (env.autodetect_arch base) ∧
      (((arch, pkgname) ∈ st.cache ∧ force = false ∧
        process_package env ctx pkgnames fuel st pkgname arch? fallback_arch force
          = Except.ok (st, [])) ∨
      (∃ stm, stm = { st with cache := (is_cached_or_cache st.cache arch pkgname).2 } ∧
        ((∃ e, wbb_except env pkgname arch base force = Except.error e ∧
          process_package env ctx pkgnames fuel st pkgname arch? fallback_arch force
            = Except.error (e, stm)) ∨
        (∃ wbb, wbb_except env pkgname arch base force = Except.ok wbb ∧
          ((∃ es, dep_loop env ctx pkgnames arch? wbb arch fuel stm pkgname
                (get_depends ctx base) = Except.error es ∧
            process_package env ctx pkgnames fuel st pkgname arch? fallback_arch force
              = Except.error es) ∨
          (∃ stL depsL, dep_loop env ctx pkgnames arch? wbb arch fuel stm pkgname
                (get_depends ctx base) = Except.ok (stL, depsL) ∧
            process_package env ctx pkgnames fuel st pkgname arch? fallback_arch force
              = Except.ok (if wbb then
                  queue_build env pkgnames arch? stL base depsL none
                else stL, depsL)))))))) := by
  cases hga : get_apkbuild env pkgname with
  | none =>
    by_cases hp : env.providers pkgname fallback_arch = true
    · exact Or.inl ⟨rfl, hp, by simp [process_package, hga, hp]⟩
    · refine Or.inr (Or.inl ⟨rfl, by simpa using hp, ?_⟩)
      simp only [Bool.not_eq_true] at hp
      simp [process_package, hga, hp]
  | some base =>
    refine Or.inr (Or.inr ⟨base, arch_or arch? (env.autodetect_arch base), rfl, rfl, ?_⟩)
    by_cases hskip : ((is_cached_or_cache st.cache
        (arch_or arch? (env.autodetect_arch base)) pkgname).1 && !force) = true
    · obtain ⟨h1, h2⟩ := Bool.and_eq_true_iff.mp hskip
      have hf : force = false := by
        cases force
        · rfl
        · simp at h2
      have hc : (arch_or arch? (env.autodetect_arch base), pkgname) ∈ st.cache := by
        by_contra hcn
        rw [is_cached_or_cache, if_neg hcn] at h1
        simp at h1
      refine Or.inl ⟨hc, hf, ?_⟩
      simp only [process_package, hga]
      rw [if_pos hskip, is_cached_or_cache, if_pos hc]
    · refine Or.inr ⟨_, rfl, ?_⟩
      cases hwe : wbb_except env pkgname (arch_or arch? (env.autodetect_arch base))
          base force with
      | error e =>
        refine Or.inl ⟨e, rfl, ?_⟩
        simp only [process_package, hga]
        rw [if_neg hskip, hwe]
      | ok wbb =>
        refine Or.inr ⟨wbb, rfl, ?_⟩
        cases hdl : dep_loop env ctx pkgnames arch? wbb
            (arch_or arch? (env.autodetect_arch base)) fuel
            { st with cache := (is_cached_or_cache st.cache
              (arch_or arch? (env.autodetect_arch base)) pkgname).2 } pkgname
            (get_depends ctx base) with
        | error es =>
          refine Or.inl ⟨es, rfl, ?_⟩
          simp only [process_package, hga]
          rw [if_neg hskip, hwe]
          dsimp only
          rw [hdl]
        | ok stp =>
          obtain ⟨stL, depsL⟩ := stp
          refine Or.inr ⟨stL, depsL, rfl, ?_⟩
          simp only [process_package, hga]
          rw [if_neg hskip, hwe]
          dsimp only
          rw [hdl]

/-- A `process_package` call only appends to the session cache and to the
build queue, whether it returns or raises. -/
theorem process_package_state (env : Env) (ctx : Context) (pkgnames : List String)
    (fuel : Nat) (st : BuildState) (pkgname : String) (arch? : Option String)
    (fallback_arch : String) (force : Bool) :
    (∃ ext, (out_state (process_package env ctx pkgnames fuel st pkgname arch?
        fallback_arch force)).cache = st.cache ++ ext) ∧
    (∃ qext, (out_state (process_package env ctx pkgnames fuel st pkgname arch?
        fallback_arch force)).build_queue = st.build_queue ++ qext) := by
  rcases process_package_cases env ctx pkgnames fuel st pkgname arch? fallback_arch force with
    ⟨_, _, hp⟩ | ⟨_, _, hp⟩ | ⟨base, arch, hga, harch, hcase⟩
  · rw [hp]; exact ⟨⟨[], by simp [out_state]⟩, ⟨[], by simp [out_state]⟩⟩
  · rw [hp]; exact ⟨⟨[], by simp [out_state]⟩, ⟨[], by simp [out_state]⟩⟩
  · rcases hcase with ⟨_, _, hp⟩ | ⟨stm, hstm, hcase⟩
    · rw [hp]; exact ⟨⟨[], by simp [out_state]⟩, ⟨[], by simp [out_state]⟩⟩
    · have hstm_cache : ∃ mext, stm.cache = st.cache ++ mext := by
        rw [hstm]
        by_cases hc : (arch, pkgname) ∈ st.cache
        · exact ⟨[], by simp [is_cached_or_cache, hc]⟩
        · exact ⟨[(arch, pkgname)], by simp [is_cached_or_cache, hc]⟩
      have hstm_queue : stm.build_queue = st.build_queue := by rw [hstm]
      obtain ⟨mext, hm⟩ := hstm_cache
      rcases hcase with ⟨e, _, hp⟩ | ⟨wbb, hwe, hcase⟩
      · rw [hp]
        exact ⟨⟨mext, by simp [out_state, hm]⟩,
          ⟨[], by simp [out_state, hstm_queue]⟩⟩
      · obtain ⟨⟨ext, he⟩, ⟨qext, hq⟩, _⟩ := dep_loop_state env ctx pkgnames arch? wbb
          arch fuel stm pkgname (get_depends ctx base)
        rcases hcase with ⟨es, hdl, hp⟩ | ⟨stL, depsL, hdl, hp⟩
        · rw [hp]
          rw [hdl] at he hq
          simp only [out_state] at he hq ⊢
          exact ⟨⟨mext ++ ext, by rw [he, hm, List.append_assoc]⟩,
            ⟨qext, by rw [hq, hstm_queue]⟩⟩
        · rw [hp]
          rw [hdl] at he hq
          simp only [out_state] at he hq ⊢
          by_cases hw : wbb = true
          · rw [hw]
            simp only [if_true]
            obtain ⟨qext0, hq0⟩ := queue_build_queue_ext env pkgnames arch? stL base depsL none
            refine ⟨⟨mext ++ ext, ?_⟩, ⟨qext ++ qext0, ?_⟩⟩
            · rw [queue_build_cache, he, hm, List.append_assoc]
            · rw [hq0, hq, hstm_queue, List.append_assoc]
          · simp only [Bool.not_eq_true] at hw
            rw [hw]
            simp only [Bool.false_eq_true, if_false]
            exact ⟨⟨mext ++ ext, by rw [he, hm, List.append_assoc]⟩,
              ⟨qext, by rw [hq, hstm_queue]⟩⟩

/-- The loop over the requested packages only appends to the session cache
and to the build queue. -/
theorem process_roots_state (env : Env) (ctx : Context) (pkgnames : List String)
    (arch? : Option String) (fallback_arch : String) (force : Bool) (fuel : Nat) :
    ∀ (roots : List String) (st : BuildState) (acc : List String),
      (∃ ext, (out_state (process_roots env ctx pkgnames arch? fallback_arch force
          fuel st acc roots)).cache = st.cache ++ ext) ∧
      (∃ qext, (out_state (process_roots env ctx pkgnames arch? fallback_arch force
          fuel st acc roots)).build_queue = st.build_queue ++ qext) := by
  intro roots
  induction roots with
  | nil =>
    intro st acc
    exact ⟨⟨[], by simp [process_roots, out_state]⟩,
      ⟨[], by simp [process_roots, out_state]⟩⟩
  | cons p rest ih =>
    intro st acc
    obtain ⟨⟨ext1, he1⟩, ⟨q1, hq1⟩⟩ := process_package_state env ctx pkgnames fuel st p
      arch? fallback_arch force
    cases hp : process_package env ctx pkgnames fuel st p arch? fallback_arch force with
    | error es =>
      have hstep : process_roots env ctx pkgnames arch? fallback_arch force fuel st acc
          (p :: rest) = Except.error es := by simp [process_roots, hp]
      rw [hstep]
      rw [hp] at he1 hq1
      exact ⟨⟨ext1, he1⟩, ⟨q1, hq1⟩⟩
    | ok stp =>
      obtain ⟨st1, deps⟩ := stp
      have hstep : process_roots env ctx pkgnames arch? fallback_arch force fuel st acc
          (p :: rest) = process_roots env ctx pkgnames arch? fallback_arch force fuel st1
          (acc ++ deps) rest := by simp [process_roots, hp]
      rw [hstep]
      rw [hp] at he1 hq1
      simp only [out_state] at he1 hq1
      obtain ⟨⟨ext2, he2⟩, ⟨q2, hq2⟩⟩ := ih st1 (acc ++ deps)
      exact ⟨⟨ext1 ++ ext2, by rw [he2, he1, List.append_assoc]⟩,
        ⟨q1 ++ q2, by rw [hq2, hq1, List.append_assoc]⟩⟩

/-- Exhaustive description of the paths through a `packages()` call. -/
theorem packages_cases (env : Env) (ctx : Context) (fuel : Nat)
    (cache0 : List (String × String)) (pkgnames : List String)
    (arch? : Option String) (force src : Bool) :
    ((src && decide (pkgnames.length > 1)) = true ∧
      packages env ctx fuel cache0 pkgnames arch? force src =
        { result := Except.error Err.multiPackageSrc, cache := cache0
          queue_names := [], exec_order := [] }) ∨
    ((src && decide (pkgnames.length > 1)) = false ∧
      ((arch? = none ∧ pkgnames = [] ∧
        packages env ctx fuel cache0 pkgnames arch? force src =
          { result := Except.error Err.indexOutOfRange, cache := cache0
            queue_names := [], exec_order := [] }) ∨
      (∃ fallback_arch,
        fallback_arch_except env arch? pkgnames = Except.ok fallback_arch ∧
        ((∃ e st1, process_roots env ctx pkgnames arch? fallback_arch force fuel
            { cache := cache0, build_queue := [], built_packages := [] } [] pkgnames
              = Except.error (e, st1) ∧
          packages env ctx fuel cache0 pkgnames arch? force src =
            { result := Except.error e, cache := st1.cache
              queue_names := queue_names st1.build_queue, exec_order := [] }) ∨
        (∃ st1 acc, process_roots env ctx pkgnames arch? fallback_arch force fuel
            { cache := cache0, build_queue := [], built_packages := [] } [] pkgnames
              = Except.ok (st1, acc) ∧
          ((st1.build_queue = [] ∧
            packages env ctx fuel cache0 pkgnames arch? force src =
              { result := Except.ok [], cache := st1.cache
                queue_names := [], exec_order := [] }) ∨
          (st1.build_queue ≠ [] ∧
            ((∃ trace e, run_queue env st1.build_queue [] = (trace, some e) ∧
              packages env ctx fuel cache0 pkgnames arch? force src =
                { result := Except.error e, cache := st1.cache
                  queue_names := queue_names st1.build_queue, exec_order := trace }) ∨
            (∃ trace, run_queue env st1.build_queue [] = (trace, none) ∧
              packages env ctx fuel cache0 pkgnames arch? force src =
                { result := Except.ok st1.built_packages, cache := []
                  queue_names := queue_names st1.build_queue
                  exec_order := trace }))))))))) := by
  by_cases hsrc : (src && decide (pkgnames.length > 1)) = true
  · exact Or.inl ⟨hsrc, by simp only [packages]; rw [if_pos hsrc]⟩
  · simp only [Bool.not_eq_true] at hsrc
    refine Or.inr ⟨hsrc, ?_⟩
    cases hfb : fallback_arch_except env arch? pkgnames with
    | error e =>
      have hh : arch? = none ∧ pkgnames = [] ∧ e = Err.indexOutOfRange := by
        cases harch : arch? with
        | some a =>
          rw [harch] at hfb
          exact absurd hfb (by simp [fallback_arch_except])
        | none =>
          cases hnames : pkgnames with
          | nil =>
            refine ⟨rfl, rfl, ?_⟩
            rw [harch, hnames] at hfb
            simp [fallback_arch_except] at hfb
            exact hfb.symm
          | cons p ps =>
            rw [harch, hnames] at hfb
            exact absurd hfb (by simp [fallback_arch_except])
      obtain ⟨harch, hnames, he⟩ := hh
      refine Or.inl ⟨harch, hnames, ?_⟩
      simp only [packages]
      rw [if_neg (by simp [hsrc])]
      rw [hfb, he]
    | ok fb =>
      refine Or.inr ⟨fb, rfl, ?_⟩
      cases hroots : process_roots env ctx pkgnames arch? fb force fuel
          { cache := cache0, build_queue := [], built_packages := [] } [] pkgnames with
      | error espair =>
        obtain ⟨e, st1⟩ := espair
        refine Or.inl ⟨e, st1, rfl, ?_⟩
        simp only [packages]
        rw [if_neg (by simp [hsrc])]
        rw [hfb]
        dsimp only
        rw [hroots]
        rfl
      | ok stacc =>
        obtain ⟨st1, acc⟩ := stacc
        refine Or.inr ⟨st1, acc, rfl, ?_⟩
        by_cases hq : st1.build_queue = []
        · refine Or.inl ⟨hq, ?_⟩
          simp only [packages]
          rw [if_neg (by simp [hsrc])]
          rw [hfb]
          dsimp only
          rw [hroots]
          dsimp only
          rw [if_pos (by rw [hq]; rfl)]
        · refine Or.inr ⟨hq, ?_⟩
          cases hrun : run_queue env st1.build_queue [] with
          | mk trace err? =>
            cases herr : err? with
            | some e =>
              subst herr
              refine Or.inl ⟨trace, e, rfl, ?_⟩
              simp only [packages]
              rw [if_neg (by simp [hsrc])]
              rw [hfb]
              dsimp only
              rw [hroots]
              dsimp only
              rw [if_neg (by simpa using hq)]
              rw [hrun]
              rfl
            | none =>
              subst herr
              refine Or.inr ⟨trace, rfl, ?_⟩
              simp only [packages]
              rw [if_neg (by simp [hsrc])]
              rw [hfb]
              dsimp only
              rw [hroots]
              dsimp only
              rw [if_neg (by simpa using hq)]
              rw [hrun]
              rfl

/-- C6, counterexample: requesting r (binary current, dependency d stale
check is irrelevant since nothing is queued) takes the nothing-to-build
early return, and the session cache still holds the decisions for r and d
after `packages()` returns — it is not cleared on that path, so a
subsequent invocation in the same process does not start with an empty
cache. -/
theorem c6_counterexample :
    (packages prop_env ctx0 100 [] ["r"] none false false).result = Except.ok [] ∧
    (packages prop_env ctx0 100 [] ["r"] none false false).cache
      = [("x86_64", "r"), ("x86_64", "d")] ∧
    (packages prop_env ctx0 100 [] ["r"] none false false).cache ≠ [] :=
  ⟨by decide, by decide, by decide⟩

/-- C6, amended: the session cache is cleared only on the path where a
non-empty build queue is executed to completion; on the nothing-to-build
early return and whenever an exception is raised, every previously cached
entry is still there (the cache keeps its prefix `cache0`). -/
theorem c6_cache_clearing (env : Env) (ctx : Context) (fuel : Nat)
    (cache0 : List (String × String)) (pkgnames : List String)
    (arch? : Option String) (force src : Bool) :
    ((∃ l, (packages env ctx fuel cache0 pkgnames arch? force src).result
        = Except.ok l) ∧
      (packages env ctx fuel cache0 pkgnames arch? force src).queue_names ≠ [] →
      (packages env ctx fuel cache0 pkgnames arch? force src).cache = []) ∧
    ((packages env ctx fuel cache0 pkgnames arch? force src).queue_names = [] →
      ∃ ext, (packages env ctx fuel cache0 pkgnames arch? force src).cache
        = cache0 ++ ext) ∧
    ((∃ e, (packages env ctx fuel cache0 pkgnames arch? force src).result
        = Except.error e) →
      ∃ ext, (packages env ctx fuel cache0 pkgnames arch? force src).cache
        = cache0 ++ ext) := by
  rcases packages_cases env ctx fuel cache0 pkgnames arch? force src with
    ⟨_, hpkg⟩ | ⟨_, hcase⟩
  · rw [hpkg]
    refine ⟨?_, fun _ => ⟨[], by simp⟩, fun _ => ⟨[], by simp⟩⟩
    rintro ⟨⟨l, hl⟩, _⟩
    cases hl
  · rcases hcase with ⟨_, _, hpkg⟩ | ⟨fb, hfb, hcase⟩
    · rw [hpkg]
      refine ⟨?_, fun _ => ⟨[], by simp⟩, fun _ => ⟨[], by simp⟩⟩
      rintro ⟨⟨l, hl⟩, _⟩
      cases hl
    · rcases hcase with ⟨e, st1, hroots, hpkg⟩ | ⟨st1, acc, hroots, hcase⟩
      · obtain ⟨⟨ext, he⟩, _⟩ := process_roots_state env ctx pkgnames arch? fb force
          fuel pkgnames { cache := cache0, build_queue := [], built_packages := [] } []
        rw [hroots] at he
        simp only [out_state] at he
        rw [hpkg]
        refine ⟨?_, fun _ => ⟨ext, he⟩, fun _ => ⟨ext, he⟩⟩
        rintro ⟨⟨l, hl⟩, _⟩
        cases hl
      · obtain ⟨⟨ext, he⟩, _⟩ := process_roots_state env ctx pkgnames arch? fb force
          fuel pkgnames { cache := cache0, build_queue := [], built_packages := [] } []
        rw [hroots] at he
        simp only [out_state] at he
        rcases hcase with ⟨hq, hpkg⟩ | ⟨hq, hcase⟩
        · rw [hpkg]
          exact ⟨fun h => absurd rfl h.2, fun _ => ⟨ext, he⟩, fun _ => ⟨ext, he⟩⟩
        · rcases hcase with ⟨trace, e, hrun, hpkg⟩ | ⟨trace, hrun, hpkg⟩
          · rw [hpkg]
            refine ⟨?_, ?_, fun _ => ⟨ext, he⟩⟩
            · rintro ⟨⟨l, hl⟩, _⟩
              cases hl
            · intro hqn
              exact absurd (List.map_eq_nil_iff.mp hqn) hq
          · rw [hpkg]
            refine ⟨fun _ => rfl, ?_, ?_⟩
            · intro hqn
              exact absurd (List.map_eq_nil_iff.mp hqn) hq
            · rintro ⟨e, hl⟩
              cases hl

/-- A failure-free run of the build loop executes exactly the queued names
in queue order. -/
theorem run_queue_ok (env : Env) :
    ∀ (q : List Item) (acc trace : List String),
      run_queue env q acc = (trace, none) → trace = acc ++ queue_names q := by
  intro q
  induction q with
  | nil =>
    intro acc trace h
    simp only [run_queue] at h
    obtain ⟨h1, _⟩ := Prod.mk.injEq .. ▸ h
    simp [queue_names, ← h1]
  | cons pkg rest ih =>
    intro acc trace h
    by_cases hf : env.build_fails pkg.name = true
    · simp [run_queue, hf] at h
    · simp only [Bool.not_eq_true] at hf
      simp only [run_queue, hf, Bool.false_eq_true, if_false] at h
      have h2 := ih (acc ++ [pkg.name]) trace h
      rw [h2]
      simp [queue_names]

/-- C4, counterexample: for the chain a makedepends b makedepends c (all
brand-new), the finalized queue and the execution order are both
[b, c, a]: the queue is consumed in push order, it is not the reversal of
the push order, and the dependency c of the queued item b is built after
b — so no single end reversal producing dependency-before-dependent
execution order exists in the code. -/
theorem c4_counterexample :
    (packages chain_env ctx0 100 [] ["a"] none false false).queue_names
      = ["b", "c", "a"] ∧
    (packages chain_env ctx0 100 [] ["a"] none false false).exec_order
      = ["b", "c", "a"] ∧
    get_apkbuild chain_env "b" = some (apkb "b" ["c"]) ∧
    ("c" ∈ get_depends ctx0 (apkb "b" ["c"])) ∧
    (packages chain_env ctx0 100 [] ["a"] none false false).exec_order ≠
      ((packages chain_env ctx0 100 [] ["a"] none false false).queue_names).reverse :=
  ⟨by decide, by decide, by decide, by decide, by decide⟩

/-- C4, amended: the build queue is never reversed; when `packages()`
returns normally the packages are executed exactly in the order their
items were pushed onto the queue. -/
theorem c4_exec_in_push_order (env : Env) (ctx : Context) (fuel : Nat)
    (cache0 : List (String × String)) (pkgnames : List String)
    (arch? : Option String) (force src : Bool) (l : List String)
    (h : (packages env ctx fuel cache0 pkgnames arch? force src).result
      = Except.ok l) :
    (packages env ctx fuel cache0 pkgnames arch? force src).exec_order
      = (packages env ctx fuel cache0 pkgnames arch? force src).queue_names := by
  rcases packages_cases env ctx fuel cache0 pkgnames arch? force src with
    ⟨_, hpkg⟩ | ⟨_, hcase⟩
  · rw [hpkg] at h; cases h
  · rcases hcase with ⟨_, _, hpkg⟩ | ⟨fb, hfb, hcase⟩
    · rw [hpkg] at h; cases h
    · rcases hcase with ⟨e, st1, hroots, hpkg⟩ | ⟨st1, acc, hroots, hcase⟩
      · rw [hpkg] at h; cases h
      · rcases hcase with ⟨hq, hpkg⟩ | ⟨hq, hcase⟩
        · rw [hpkg]
        · rcases hcase with ⟨trace, e, hrun, hpkg⟩ | ⟨trace, hrun, hpkg⟩
          · rw [hpkg] at h; cases h
          · rw [hpkg]
            exact run_queue_ok env st1.build_queue [] trace hrun |>.trans (by simp)

theorem c6_witness :
    (packages chain_env ctx0 100 [] ["a"] none false false).cache = [] :=
  (c6_cache_clearing chain_env ctx0 100 [] ["a"] none false false).1
    ⟨⟨["a"], by decide⟩, by decide⟩

theorem c4_witness :
    (packages chain_env ctx0 100 [] ["a"] none false false).result
      = Except.ok ["a"] ∧
    (packages chain_env ctx0 100 [] ["a"] none false false).exec_order =
      (packages chain_env ctx0 100 [] ["a"] none false false).queue_names :=
  ⟨by decide,
    c4_exec_in_push_order chain_env ctx0 100 [] ["a"] none false false ["a"] (by decide)⟩

/-- The worklist loop preserves freedom from duplicate names in the build
queue (every append goes through the dedup guard of `queue_build`). -/
theorem dep_loop_names_nodup (env : Env) (ctx : Context) (pkgnames : List String)
    (arch? : Option String) (wbb : Bool) (arch : String) :
    ∀ (fuel : Nat) (st : BuildState) (parent : String) (work : List String),
      (queue_names st.build_queue).Nodup →
      (queue_names (out_state (dep_loop env ctx pkgnames arch? wbb arch fuel st
        parent work)).build_queue).Nodup := by
  intro fuel
  induction fuel with
  | zero => intro st parent work h; simpa [dep_loop, out_state] using h
  | succ f ih =>
    intro st parent work h
    cases work with
    | nil => simpa [dep_loop, out_state] using h
    | cons dep rest =>
      rcases dep_loop_cons_cases env ctx pkgnames arch? wbb arch f st parent dep rest with
        ⟨_, hL⟩ | ⟨_, hcase⟩
      · rw [hL]; exact ih st parent rest h
      · rcases hcase with ⟨_, hL⟩ | ⟨apkbuild, _, hcase⟩
        · rw [hL]; exact ih (marked st arch dep) parent rest h
        · rcases hcase with ⟨_, herr | hL⟩ | ⟨_, hcase⟩
          · rcases herr with ⟨e, _, hL⟩
            rw [hL]
            simpa [out_state, marked] using h
          · rw [hL]; exact ih (marked st arch dep) parent rest h
          · rcases hcase with ⟨_, hL⟩ | ⟨_, hL⟩
            · rw [hL]; exact ih (marked st arch dep) parent rest h
            · rw [hL]
              by_cases hw : wbb = true
              · rw [if_pos hw]
                exact ih _ dep (get_depends ctx apkbuild ++ rest)
                  (queue_build_names_nodup env pkgnames arch? (marked st arch dep)
                    apkbuild (get_depends ctx apkbuild) none h)
              · rw [if_neg hw]
                exact ih (marked st arch dep) dep (get_depends ctx apkbuild ++ rest) h

/-- `process_package` preserves freedom from duplicate names in the build
queue. -/
theorem process_package_names_nodup (env : Env) (ctx : Context)
    (pkgnames : List String) (fuel : Nat) (st : BuildState) (pkgname : String)
    (arch? : Option String) (fallback_arch : String) (force : Bool)
    (h : (queue_names st.build_queue).Nodup) :
    (queue_names (out_state (process_package env ctx pkgnames fuel st pkgname arch?
      fallback_arch force)).build_queue).Nodup := by
  rcases process_package_cases env ctx pkgnames fuel st pkgname arch? fallback_arch force with
    ⟨_, _, hp⟩ | ⟨_, _, hp⟩ | ⟨base, arch, hga, harch, hcase⟩
  · rw [hp]; exact h
  · rw [hp]; exact h
  · rcases hcase with ⟨_, _, hp⟩ | ⟨stm, hstm, hcase⟩
    · rw [hp]; exact h
    · have hstm_nodup : (queue_names stm.build_queue).Nodup := by rw [hstm]; exact h
      rcases hcase with ⟨e, _, hp⟩ | ⟨wbb, hwe, hcase⟩
      · rw [hp]
        simpa [out_state] using hstm_nodup
      · have hL := dep_loop_names_nodup env ctx pkgnames arch? wbb arch fuel stm
          pkgname (get_depends ctx base) hstm_nodup
        rcases hcase with ⟨es, hdl, hp⟩ | ⟨stL, depsL, hdl, hp⟩
        · rw [hp]
          rw [hdl] at hL
          simpa [out_state] using hL
        · rw [hp]
          rw [hdl] at hL
          simp only [out_state] at hL ⊢
          by_cases hw : wbb = true
          · rw [if_pos hw]
            exact queue_build_names_nodup env pkgnames arch? stL base depsL none hL
          · rw [if_neg hw]
            exact hL

/-- The loop over the requested packages preserves freedom from duplicate
names in the build queue. -/
theorem process_roots_names_nodup (env : Env) (ctx : Context)
    (pkgnames : List String) (arch? : Option String) (fallback_arch : String)
    (force : Bool) (fuel : Nat) :
    ∀ (roots : List String) (st : BuildState) (acc : List String),
      (queue_names st.build_queue).Nodup →
      (queue_names (out_state (process_roots env ctx pkgnames arch? fallback_arch
        force fuel st acc roots)).build_queue).Nodup := by
  intro roots
  induction roots with
  | nil => intro st acc h; simpa [process_roots, out_state] using h
  | cons p rest ih =>
    intro st acc h
    have hp1 := process_package_names_nodup env ctx pkgnames fuel st p arch?
      fallback_arch force h
    cases hp : process_package env ctx pkgnames fuel st p arch? fallback_arch force with
    | error es =>
      have hstep : process_roots env ctx pkgnames arch? fallback_arch force fuel st acc
          (p :: rest) = Except.error es := by simp [process_roots, hp]
      rw [hstep]
      rw [hp] at hp1
      exact hp1
    | ok stp =>
      obtain ⟨st1, deps⟩ := stp
      have hstep : process_roots env ctx pkgnames arch? fallback_arch force fuel st acc
          (p :: rest) = process_roots env ctx pkgnames arch? fallback_arch force fuel
          st1 (acc ++ deps) rest := by simp [process_roots, hp]
      rw [hstep]
      rw [hp] at hp1
      simp only [out_state] at hp1
      exact ih st1 (acc ++ deps) hp1

/-- C5: an enqueue attempt for a name already present in the queue adds
nothing, and consequently the finalized queue of any `packages()`
invocation holds at most one item per package name, however often a name
was requested or reached through dependency chains. -/
theorem c5_queue_dedup :
    (∀ (env : Env) (pkgnames : List String) (arch? : Option String)
       (st : BuildState) (apkbuild : Apkbuild) (depends : List String)
       (cross : Option String),
      apkbuild.pkgname ∈ queue_names st.build_queue →
      queue_build env pkgnames arch? st apkbuild depends cross = st) ∧
    (∀ (env : Env) (ctx : Context) (fuel : Nat) (cache0 : List (String × String))
       (pkgnames : List String) (arch? : Option String) (force src : Bool),
      ((packages env ctx fuel cache0 pkgnames arch? force src).queue_names).Nodup) := by
  constructor
  · exact queue_build_mem_noop
  · intro env ctx fuel cache0 pkgnames arch? force src
    rcases packages_cases env ctx fuel cache0 pkgnames arch? force src with
      ⟨_, hpkg⟩ | ⟨_, hcase⟩
    · rw [hpkg]; exact List.nodup_nil
    · rcases hcase with ⟨_, _, hpkg⟩ | ⟨fb, hfb, hcase⟩
      · rw [hpkg]; exact List.nodup_nil
      · have hroots_nodup := process_roots_names_nodup env ctx pkgnames arch? fb force
          fuel pkgnames { cache := cache0, build_queue := [], built_packages := [] } []
          (by simp [queue_names])
        rcases hcase with ⟨e, st1, hroots, hpkg⟩ | ⟨st1, acc, hroots, hcase⟩
        · rw [hpkg]
          rw [hroots] at hroots_nodup
          simpa [out_state] using hroots_nodup
        · rw [hroots] at hroots_nodup
          simp only [out_state] at hroots_nodup
          rcases hcase with ⟨hq, hpkg⟩ | ⟨hq, hcase⟩
          · rw [hpkg]; exact List.nodup_nil
          · rcases hcase with ⟨trace, e, hrun, hpkg⟩ | ⟨trace, hrun, hpkg⟩
            · rw [hpkg]; exact hroots_nodup
            · rw [hpkg]; exact hroots_nodup

theorem c5_witness :
    (queue_build chain_env ["a"] none sample_state (apkb "b" ["c"]) [] none
      = sample_state) ∧
    ((packages chain_env ctx0 100 [] ["a", "a"] none false false).queue_names).Nodup :=
  ⟨c5_queue_dedup.1 chain_env ["a"] none sample_state (apkb "b" ["c"]) [] none
      (by decide),
    c5_queue_dedup.2 chain_env ctx0 100 [] ["a", "a"] none false false⟩

/-- The worklist loop preserves the invariant that `built_packages` holds
exactly the requested names that have an item in the queue. -/
theorem dep_loop_built_inv (env : Env) (ctx : Context) (pkgnames : List String)
    (arch? : Option String) (wbb : Bool) (arch : String) :
    ∀ (fuel : Nat) (st : BuildState) (parent : String) (work : List String),
      (∀ x, x ∈ st.built_packages ↔ x ∈ pkgnames ∧ x ∈ queue_names st.build_queue) →
      (∀ x, x ∈ (out_state (dep_loop env ctx pkgnames arch? wbb arch fuel st parent
          work)).built_packages ↔
        x ∈ pkgnames ∧ x ∈ queue_names (out_state (dep_loop env ctx pkgnames arch?
          wbb arch fuel st parent work)).build_queue) := by
  intro fuel
  induction fuel with
  | zero => intro st parent work h; simpa [dep_loop, out_state] using h
  | succ f ih =>
    intro st parent work h
    cases work with
    | nil => simpa [dep_loop, out_state] using h
    | cons dep rest =>
      rcases dep_loop_cons_cases env ctx pkgnames arch? wbb arch f st parent dep rest with
        ⟨_, hL⟩ | ⟨_, hcase⟩
      · rw [hL]; exact ih st parent rest h
      · rcases hcase with ⟨_, hL⟩ | ⟨apkbuild, _, hcase⟩
        · rw [hL]; exact ih (marked st arch dep) parent rest h
        · rcases hcase with ⟨_, herr | hL⟩ | ⟨_, hcase⟩
          · rcases herr with ⟨e, _, hL⟩
            rw [hL]
            simpa [out_state, marked] using h
          · rw [hL]; exact ih (marked st arch dep) parent rest h
          · rcases hcase with ⟨_, hL⟩ | ⟨_, hL⟩
            · rw [hL]; exact ih (marked st arch dep) parent rest h
            · rw [hL]
              by_cases hw : wbb = true
              · rw [if_pos hw]
                exact ih _ dep (get_depends ctx apkbuild ++ rest)
                  (queue_build_built_inv env pkgnames arch? (marked st arch dep)
                    apkbuild (get_depends ctx apkbuild) none h)
              · rw [if_neg hw]
                exact ih (marked st arch dep) dep (get_depends ctx apkbuild ++ rest) h

/-- `process_package` preserves the built-packages invariant. -/
theorem process_package_built_inv (env : Env) (ctx : Context)
    (pkgnames : List String) (fuel : Nat) (st : BuildState) (pkgname : String)
    (arch? : Option String) (fallback_arch : String) (force : Bool)
    (h : ∀ x, x ∈ st.built_packages ↔ x ∈ pkgnames ∧ x ∈ queue_names st.build_queue) :
    ∀ x, x ∈ (out_state (process_package env ctx pkgnames fuel st pkgname arch?
        fallback_arch force)).built_packages ↔
      x ∈ pkgnames ∧ x ∈ queue_names (out_state (process_package env ctx pkgnames
        fuel st pkgname arch? fallback_arch force)).build_queue := by
  rcases process_package_cases env ctx pkgnames fuel st pkgname arch? fallback_arch force with
    ⟨_, _, hp⟩ | ⟨_, _, hp⟩ | ⟨base, arch, hga, harch, hcase⟩
  · rw [hp]; exact h
  · rw [hp]; exact h
  · rcases hcase with ⟨_, _, hp⟩ | ⟨stm, hstm, hcase⟩
    · rw [hp]; exact h
    · have hstm_inv : ∀ x, x ∈ stm.built_packages ↔
          x ∈ pkgnames ∧ x ∈ queue_names stm.build_queue := by
        rw [hstm]; exact h
      rcases hcase with ⟨e, _, hp⟩ | ⟨wbb, hwe, hcase⟩
      · rw [hp]
        simpa [out_state] using hstm_inv
      · have hL := dep_loop_built_inv env ctx pkgnames arch? wbb arch fuel stm
          pkgname (get_depends ctx base) hstm_inv
        rcases hcase with ⟨es, hdl, hp⟩ | ⟨stL, depsL, hdl, hp⟩
        · rw [hp]
          rw [hdl] at hL
          simpa [out_state] using hL
        · rw [hp]
          rw [hdl] at hL
          simp only [out_state] at hL ⊢
          by_cases hw : wbb = true
          · rw [if_pos hw]
            exact queue_build_built_inv env pkgnames arch? stL base depsL none hL
          · rw [if_neg hw]
            exact hL

/-- The loop over the requested packages preserves the built-packages
invariant. -/
theorem process_roots_built_inv (env : Env) (ctx : Context)
    (pkgnames : List String) (arch? : Option String) (fallback_arch : String)
    (force : Bool) (fuel : Nat) :
    ∀ (roots : List String) (st : BuildState) (acc : List String),
      (∀ x, x ∈ st.built_packages ↔ x ∈ pkgnames ∧ x ∈ queue_names st.build_queue) →
      (∀ x, x ∈ (out_state (process_roots env ctx pkgnames arch? fallback_arch force
          fuel st acc roots)).built_packages ↔
        x ∈ pkgnames ∧ x ∈ queue_names (out_state (process_roots env ctx pkgnames
          arch? fallback_arch force fuel st acc roots)).build_queue) := by
  intro roots
  induction roots with
  | nil => intro st acc h; simpa [process_roots, out_state] using h
  | cons p rest ih =>
    intro st acc h
    have hp1 := process_package_built_inv env ctx pkgnames fuel st p arch?
      fallback_arch force h
    cases hp : process_package env ctx pkgnames fuel st p arch? fallback_arch force with
    | error es =>
      have hstep : process_roots env ctx pkgnames arch? fallback_arch force fuel st acc
          (p :: rest) = Except.error es := by simp [process_roots, hp]
      rw [hstep]
      rw [hp] at hp1
      exact hp1
    | ok stp =>
      obtain ⟨st1, deps⟩ := stp
      have hstep : process_roots env ctx pkgnames arch? fallback_arch force fuel st acc
          (p :: rest) = process_roots env ctx pkgnames arch? fallback_arch force fuel
          st1 (acc ++ deps) rest := by simp [process_roots, hp]
      rw [hstep]
      rw [hp] at hp1
      simp only [out_state] at hp1
      exact ih st1 (acc ++ deps) hp1

/-- C9: when `packages()` returns normally, the returned list holds exactly
the requested names for which a build item was queued (a subset of the
request), and it is empty when the finalized queue was empty. -/
theorem c9_returns_queued_requests (env : Env) (ctx : Context) (fuel : Nat)
    (cache0 : List (String × String)) (pkgnames : List String)
    (arch? : Option String) (force src : Bool) (l : List String)
    (h : (packages env ctx fuel cache0 pkgnames arch? force src).result
      = Except.ok l) :
    (∀ x, x ∈ l ↔ x ∈ pkgnames ∧
      x ∈ (packages env ctx fuel cache0 pkgnames arch? force src).queue_names) ∧
    ((packages env ctx fuel cache0 pkgnames arch? force src).queue_names = [] →
      l = []) := by
  rcases packages_cases env ctx fuel cache0 pkgnames arch? force src with
    ⟨_, hpkg⟩ | ⟨_, hcase⟩
  · rw [hpkg] at h; cases h
  · rcases hcase with ⟨_, _, hpkg⟩ | ⟨fb, hfb, hcase⟩
    · rw [hpkg] at h; cases h
    · rcases hcase with ⟨e, st1, hroots, hpkg⟩ | ⟨st1, acc, hroots, hcase⟩
      · rw [hpkg] at h; cases h
      · have hinv := process_roots_built_inv env ctx pkgnames arch? fb force fuel
          pkgnames { cache := cache0, build_queue := [], built_packages := [] } []
          (by intro x; simp [queue_names])
        rw [hroots] at hinv
        simp only [out_state] at hinv
        rcases hcase with ⟨hq, hpkg⟩ | ⟨hq, hcase⟩
        · rw [hpkg] at h
          rw [hpkg]
          cases h
          exact ⟨by intro x; simp, fun _ => rfl⟩
        · rcases hcase with ⟨trace, e, hrun, hpkg⟩ | ⟨trace, hrun, hpkg⟩
          · rw [hpkg] at h; cases h
          · rw [hpkg] at h
            rw [hpkg]
            cases h
            refine ⟨hinv, ?_⟩
            intro hqn
            exact absurd (List.map_eq_nil_iff.mp hqn) hq

theorem c9_witness :
    (packages chain_env ctx0 100 [] ["a"] none false false).result
      = Except.ok ["a"] ∧
    (("a" ∈ (["a"] : List String)) ↔ ("a" ∈ (["a"] : List String)) ∧
      "a" ∈ (packages chain_env ctx0 100 [] ["a"] none false false).queue_names) :=
  ⟨by decide,
    (c9_returns_queued_requests chain_env ctx0 100 [] ["a"] none false false ["a"]
      (by decide)).1 "a"⟩

/-- In a well-formed repository a resolved APKBUILD carries the queried
name. -/
theorem get_apkbuild_wf (env : Env) (hwf : WellFormedAports env) (dep : String)
    (a : Apkbuild) (h : get_apkbuild env dep = some a) : a.pkgname = dep := by
  unfold get_apkbuild at h
  cases hf : env.pmaports.find? (fun p => p.1 == dep) with
  | none => rw [hf] at h; cases h
  | some p =>
    rw [hf] at h
    simp only [Option.map_some', Option.some.injEq] at h
    have hm := List.mem_of_find?_eq_some hf
    have hp := List.find?_some hf
    simp only [beq_iff_eq] at hp
    rw [← h, hwf p hm, hp]

/-- When the dedup guard passes, `queue_build` appends exactly one item
carrying the APKBUILD's name. -/
theorem queue_build_append (env : Env) (pkgnames : List String)
    (arch? : Option String) (st : BuildState) (apkbuild : Apkbuild)
    (depends : List String) (cross : Option String)
    (h : apkbuild.pkgname ∉ queue_names st.build_queue) :
    ∃ it, (queue_build env pkgnames arch? st apkbuild depends cross).build_queue
        = st.build_queue ++ [it] ∧ it.name = apkbuild.pkgname := by
  have hq : ¬(st.build_queue.any fun item => item.name == apkbuild.pkgname) = true :=
    fun hc => h ((any_name_eq_true st.build_queue apkbuild.pkgname).mp hc)
  unfold queue_build
  rw [if_neg hq]
  exact ⟨_, rfl, rfl⟩

/-- Once a name's stripped form is in the session cache, the worklist loop
can never enqueue an item with that name again (in a well-formed
repository): its membership in the queue is frozen. -/
theorem dep_loop_frozen (env : Env) (ctx : Context) (pkgnames : List String)
    (arch? : Option String) (wbb : Bool) (arch : String)
    (hwf : WellFormedAports env) (n : String) :
    ∀ (fuel : Nat) (st : BuildState) (parent : String) (work : List String),
      (arch, remove_operators n) ∈ st.cache →
      (n ∈ queue_names (out_state (dep_loop env ctx pkgnames arch? wbb arch fuel st
          parent work)).build_queue ↔
        n ∈ queue_names st.build_queue) := by
  intro fuel
  induction fuel with
  | zero => intro st parent work _; exact Iff.rfl
  | succ f ih =>
    intro st parent work hn
    cases work with
    | nil => exact Iff.rfl
    | cons dep rest =>
      rcases dep_loop_cons_cases env ctx pkgnames arch? wbb arch f st parent dep rest with
        ⟨_, hL⟩ | ⟨hc, hcase⟩
      · rw [hL]; exact ih st parent rest hn
      · have hnm : (arch, remove_operators n) ∈ (marked st arch dep).cache := by
          simp only [marked]
          exact List.mem_append_left _ hn
        rcases hcase with ⟨_, hL⟩ | ⟨apkbuild, hga, hcase⟩
        · rw [hL]; exact ih (marked st arch dep) parent rest hnm
        · have hname : apkbuild.pkgname = dep := get_apkbuild_wf env hwf dep apkbuild hga
          have hne : n ≠ apkbuild.pkgname := by
            intro he
            rw [he, hname] at hn
            exact hc hn
          rcases hcase with ⟨_, herr | hL⟩ | ⟨_, hcase⟩
          · rcases herr with ⟨e, _, hL⟩
            rw [hL]
            exact Iff.rfl
          · rw [hL]; exact ih (marked st arch dep) parent rest hnm
          · rcases hcase with ⟨_, hL⟩ | ⟨_, hL⟩
            · rw [hL]; exact ih (marked st arch dep) parent rest hnm
            · rw [hL]
              by_cases hw : wbb = true
              · rw [if_pos hw]
                have hcq : (arch, remove_operators n) ∈
                    (queue_build env pkgnames arch? (marked st arch dep) apkbuild
                      (get_depends ctx apkbuild) none).cache := by
                  rw [queue_build_cache]
                  exact hnm
                rw [ih _ dep (get_depends ctx apkbuild ++ rest) hcq]
                rcases queue_build_names env pkgnames arch? (marked st arch dep)
                    apkbuild (get_depends ctx apkbuild) none with he | ⟨_, he⟩
                · rw [he]
                  exact Iff.rfl
                · rw [he]
                  simp [marked, hne]
              · rw [if_neg hw]
                exact ih (marked st arch dep) dep (get_depends ctx apkbuild ++ rest) hnm

/-- C2, counterexample: root r is UNNECESSARY (its binary is current) and
its dependency d has status NEW (no binary at all); the claim says d is
enqueued regardless of r, but the code enqueues nothing: the build queue
stays empty. -/
theorem c2_counterexample :
    build_status prop_env "x86_64" (apkb "r" ["d"]) = BuildStatus.UNNECESSARY ∧
    build_status prop_env "x86_64" (apkb "d" []) = BuildStatus.NEW ∧
    get_apkbuild prop_env "r" = some (apkb "r" ["d"]) ∧
    get_apkbuild prop_env "d" = some (apkb "d" []) ∧
    ("d" ∈ get_depends ctx0 (apkb "r" ["d"])) ∧
    (packages prop_env ctx0 100 [] ["r"] none false false).queue_names = [] :=
  ⟨by decide, by decide, by decide, by decide, by decide, by decide⟩

/-- C2, amended: when the walker first visits a dependency D (not yet in
the session cache, resolvable to an APKBUILD, normal mode), D ends up in
the build queue if and only if it was already there or D is necessary AND
the base package is marked for build.  The brand-new NEW status grants no
exception: an unnecessary-base walk enqueues nothing. -/
theorem c2_necessity_propagation (env : Env) (ctx : Context)
    (pkgnames : List String) (arch? : Option String) (wbb : Bool) (arch : String)
    (fuel : Nat) (st : BuildState) (parent dep : String) (rest : List String)
    (apkbuild : Apkbuild)
    (hwf : WellFormedAports env)
    (hnd : ctx.no_depends = false)
    (hc : (arch, remove_operators dep) ∉ st.cache)
    (hga : get_apkbuild env dep = some apkbuild) :
    (apkbuild.pkgname ∈ queue_names (out_state (dep_loop env ctx pkgnames arch? wbb
        arch (fuel + 1) st parent (dep :: rest))).build_queue ↔
      (apkbuild.pkgname ∈ queue_names st.build_queue ∨
        (is_necessary env arch apkbuild = true ∧ wbb = true))) := by
  have hname := get_apkbuild_wf env hwf dep apkbuild hga
  have hmark : (arch, remove_operators apkbuild.pkgname) ∈ (marked st arch dep).cache := by
    simp [marked, hname]
  rcases dep_loop_cons_cases env ctx pkgnames arch? wbb arch fuel st parent dep rest with
    ⟨hc2, _⟩ | ⟨_, hcase⟩
  · exact absurd hc2 hc
  · rcases hcase with ⟨hga2, _⟩ | ⟨apkbuild2, hga2, hcase⟩
    · rw [hga] at hga2; cases hga2
    · rw [hga] at hga2
      injection hga2 with he
      subst he
      rcases hcase with ⟨hnd2, _⟩ | ⟨_, hcase⟩
      · rw [hnd] at hnd2; cases hnd2
      · rcases hcase with ⟨hnec, hL⟩ | ⟨hnec, hL⟩
        · rw [hL]
          rw [dep_loop_frozen env ctx pkgnames arch? wbb arch hwf apkbuild.pkgname
            fuel (marked st arch dep) parent rest hmark]
          simp [marked, hnec]
        · rw [hL]
          by_cases hw : wbb = true
          · rw [if_pos hw]
            rw [dep_loop_frozen env ctx pkgnames arch? wbb arch hwf apkbuild.pkgname
              fuel (queue_build env pkgnames arch? (marked st arch dep) apkbuild
                (get_depends ctx apkbuild) none) dep
              (get_depends ctx apkbuild ++ rest)
              (by rw [queue_build_cache]; exact hmark)]
            have hmem := queue_build_mem env pkgnames arch? (marked st arch dep)
              apkbuild (get_depends ctx apkbuild) none
            simp [hmem, hnec, hw]
          · rw [if_neg hw]
            rw [dep_loop_frozen env ctx pkgnames arch? wbb arch hwf apkbuild.pkgname
              fuel (marked st arch dep) dep (get_depends ctx apkbuild ++ rest) hmark]
            have hwf2 : wbb = false := by simpa using hw
            simp [marked, hnec, hwf2]

theorem c2_witness :
    WellFormedAports chain_env ∧
    ((apkb "b" ["c"]).pkgname ∈ queue_names (out_state (dep_loop chain_env ctx0
        ["a"] none true "x86_64" (9 + 1) st_empty "a" ["b", "x"])).build_queue ↔
      ((apkb "b" ["c"]).pkgname ∈ queue_names st_empty.build_queue ∨
        (is_necessary chain_env "x86_64" (apkb "b" ["c"]) = true ∧ true = true))) :=
  ⟨by decide,
    c2_necessity_propagation chain_env ctx0 ["a"] none true "x86_64" 9 st_empty
      "a" "b" ["x"] (apkb "b" ["c"]) (by decide) (by decide) (by decide) (by decide)⟩

/-- C1, counterexample: for the chain a makedepends b makedepends c (all
brand-new, a requested), the finalized queue is [b, c, a]; c is a direct
dependency of the queued item b yet appears after it, so the ordering
invariant of the claim does not hold of the finalized queue. -/
theorem c1_counterexample :
    (packages chain_env ctx0 100 [] ["a"] none false false).queue_names
      = ["b", "c", "a"] ∧
    get_apkbuild chain_env "b" = some (apkb "b" ["c"]) ∧
    ("c" ∈ get_depends ctx0 (apkb "b" ["c"])) ∧
    ((packages chain_env ctx0 100 [] ["a"] none false false).queue_names).indexOf "b"
      < ((packages chain_env ctx0 100 [] ["a"] none false false).queue_names).indexOf "c" :=
  ⟨by decide, by decide, by decide, by decide⟩

/-- C1, amended: the queue is not globally ordered
dependency-before-dependent.  What does hold of the push order: when a
`process_package` call returns and its requested package was newly queued,
that package's item is the last element of the queue — every item queued
during its walk (and everything queued before) precedes it. -/
theorem c1_base_enqueued_last (env : Env) (ctx : Context) (pkgnames : List String)
    (fuel : Nat) (st : BuildState) (pkgname : String) (arch? : Option String)
    (fallback_arch : String) (force : Bool)
    (hwf : WellFormedAports env)
    (hplain : remove_operators pkgname = pkgname)
    (hok : run_ok (process_package env ctx pkgnames fuel st pkgname arch?
      fallback_arch force) = true) :
    pkgname ∉ queue_names (out_state (process_package env ctx pkgnames fuel st
        pkgname arch? fallback_arch force)).build_queue ∨
    pkgname ∈ queue_names st.build_queue ∨
    ∃ pre it, (out_state (process_package env ctx pkgnames fuel st pkgname arch?
        fallback_arch force)).build_queue = pre ++ [it] ∧ it.name = pkgname := by
  rcases process_package_cases env ctx pkgnames fuel st pkgname arch? fallback_arch force with
    ⟨_, _, hp⟩ | ⟨_, _, hp⟩ | ⟨base, arch, hga, harch, hcase⟩
  · rw [hp]
    simp only [out_state]
    by_cases hm : pkgname ∈ queue_names st.build_queue
    · exact Or.inr (Or.inl hm)
    · exact Or.inl hm
  · rw [hp] at hok; cases hok
  · have hname : base.pkgname = pkgname := get_apkbuild_wf env hwf pkgname base hga
    rcases hcase with ⟨_, _, hp⟩ | ⟨stm, hstm, hcase⟩
    · rw [hp]
      simp only [out_state]
      by_cases hm : pkgname ∈ queue_names st.build_queue
      · exact Or.inr (Or.inl hm)
      · exact Or.inl hm
    · have hstm_mark : (arch, remove_operators pkgname) ∈ stm.cache := by
        rw [hstm, hplain]
        by_cases hcc : (arch, pkgname) ∈ st.cache
        · simp [is_cached_or_cache, hcc]
        · simp [is_cached_or_cache, hcc]
      have hstm_queue : stm.build_queue = st.build_queue := by rw [hstm]
      rcases hcase with ⟨e, _, hp⟩ | ⟨wbb, hwe, hcase⟩
      · rw [hp] at hok; cases hok
      · rcases hcase with ⟨es, hdl, hp⟩ | ⟨stL, depsL, hdl, hp⟩
        · rw [hp] at hok; cases hok
        · have hfr := dep_loop_frozen env ctx pkgnames arch? wbb arch hwf pkgname
            fuel stm pkgname (get_depends ctx base) hstm_mark
          rw [hdl] at hfr
          simp only [out_state] at hfr
          rw [hp]
          simp only [out_state]
          by_cases hw : wbb = true
          · rw [if_pos hw]
            by_cases hmem : pkgname ∈ queue_names stL.build_queue
            · rw [← hname] at hmem
              rw [queue_build_mem_noop env pkgnames arch? stL base depsL none hmem]
              rw [hname] at hmem
              exact Or.inr (Or.inl (by rw [← hstm_queue]; exact hfr.mp hmem))
            · rw [← hname] at hmem
              obtain ⟨it, hit, hitname⟩ := queue_build_append env pkgnames arch? stL
                base depsL none hmem
              exact Or.inr (Or.inr ⟨stL.build_queue, it, hit, by rw [hitname, hname]⟩)
          · rw [if_neg hw]
            by_cases hmem : pkgname ∈ queue_names stL.build_queue
            · exact Or.inr (Or.inl (by rw [← hstm_queue]; exact hfr.mp hmem))
            · exact Or.inl hmem

theorem c1_witness :
    run_ok (process_package chain_env ctx0 ["a"] 50 st_empty "a" none "x86_64"
      false) = true ∧
    ("a" ∉ queue_names (out_state (process_package chain_env ctx0 ["a"] 50 st_empty
        "a" none "x86_64" false)).build_queue ∨
    "a" ∈ queue_names st_empty.build_queue ∨
    ∃ pre it, (out_state (process_package chain_env ctx0 ["a"] 50 st_empty "a" none
        "x86_64" false)).build_queue = pre ++ [it] ∧ it.name = "a") :=
  ⟨by decide,
    c1_base_enqueued_last chain_env ctx0 ["a"] 50 st_empty "a" none "x86_64" false
      (by decide) (by decide) (by decide)⟩

/-- In no-depends mode, a first-visit dependency that resolves to an
APKBUILD but has no binary package makes the worklist loop raise
immediately (the `MissingDependencyBinaryError` of the spec). -/
theorem dep_loop_nd_missing (env : Env) (ctx : Context) (pkgnames : List String)
    (arch? : Option String) (wbb : Bool) (arch : String) (fuel : Nat)
    (st : BuildState) (parent dep : String) (rest : List String)
    (apkbuild : Apkbuild)
    (hnd : ctx.no_depends = true)
    (hc : (arch, remove_operators dep) ∉ st.cache)
    (hga : get_apkbuild env dep = some apkbuild)
    (hbin : env.binary_version dep
      (if env.crosscompile apkbuild arch = some "native" then env.native_arch
       else arch) = none) :
    dep_loop env ctx pkgnames arch? wbb arch (fuel + 1) st parent (dep :: rest)
      = Except.error (Err.missingBinary dep parent, marked st arch dep) := by
  simp [dep_loop, is_cached_or_cache, hc, hga, hnd, hbin, marked]

/-- In no-depends mode, a first-visit dependency whose binary exists but is
outdated (necessary) makes the worklist loop raise immediately (the
`OutdatedDependencyBinaryError` of the spec). -/
theorem dep_loop_nd_outdated (env : Env) (ctx : Context) (pkgnames : List String)
    (arch? : Option String) (wbb : Bool) (arch : String) (fuel : Nat)
    (st : BuildState) (parent dep : String) (rest : List String)
    (apkbuild : Apkbuild) (v : String)
    (hnd : ctx.no_depends = true)
    (hc : (arch, remove_operators dep) ∉ st.cache)
    (hga : get_apkbuild env dep = some apkbuild)
    (hbin : env.binary_version dep
      (if env.crosscompile apkbuild arch = some "native" then env.native_arch
       else arch) = some v)
    (hnec : is_necessary env arch apkbuild = true) :
    dep_loop env ctx pkgnames arch? wbb arch (fuel + 1) st parent (dep :: rest)
      = Except.error (Err.outdatedBinary dep parent, marked st arch dep) := by
  simp [dep_loop, is_cached_or_cache, hc, hga, hnd, hbin, hnec, marked]

/-- In no-depends mode `process_package` can add at most the requested
package itself to the queue. -/
theorem process_package_nd_names (env : Env) (ctx : Context)
    (pkgnames : List String) (fuel : Nat) (st : BuildState) (pkgname : String)
    (arch? : Option String) (fallback_arch : String) (force : Bool)
    (hwf : WellFormedAports env) (hnd : ctx.no_depends = true) :
    ∀ n ∈ queue_names (out_state (process_package env ctx pkgnames fuel st pkgname
        arch? fallback_arch force)).build_queue,
      n ∈ queue_names st.build_queue ∨ n = pkgname := by
  rcases process_package_cases env ctx pkgnames fuel st pkgname arch? fallback_arch force with
    ⟨_, _, hp⟩ | ⟨_, _, hp⟩ | ⟨base, arch, hga, harch, hcase⟩
  · rw [hp]; exact fun n hn => Or.inl hn
  · rw [hp]; exact fun n hn => Or.inl hn
  · have hname : base.pkgname = pkgname := get_apkbuild_wf env hwf pkgname base hga
    rcases hcase with ⟨_, _, hp⟩ | ⟨stm, hstm, hcase⟩
    · rw [hp]; exact fun n hn => Or.inl hn
    · have hstm_queue : stm.build_queue = st.build_queue := by rw [hstm]
      rcases hcase with ⟨e, _, hp⟩ | ⟨wbb, hwe, hcase⟩
      · rw [hp]
        simp only [out_state]
        rw [hstm_queue]
        exact fun n hn => Or.inl hn
      · obtain ⟨_, _, h3⟩ := dep_loop_state env ctx pkgnames arch? wbb arch fuel stm
          pkgname (get_depends ctx base)
        have hLq := h3 (Or.inr hnd)
        rcases hcase with ⟨es, hdl, hp⟩ | ⟨stL, depsL, hdl, hp⟩
        · rw [hp]
          rw [hdl] at hLq
          simp only [out_state] at hLq ⊢
          rw [hLq, hstm_queue]
          exact fun n hn => Or.inl hn
        · rw [hp]
          rw [hdl] at hLq
          simp only [out_state] at hLq ⊢
          by_cases hw : wbb = true
          · rw [if_pos hw]
            intro n hn
            rcases queue_build_names env pkgnames arch? stL base depsL none with
              he | ⟨_, he⟩
            · rw [he, hLq, hstm_queue] at hn
              exact Or.inl hn
            · rw [he, hLq, hstm_queue] at hn
              rcases List.mem_append.mp hn with hm | hm
              · exact Or.inl hm
              · simp only [List.mem_singleton] at hm
                exact Or.inr (by rw [hm, hname])
          · rw [if_neg hw]
            rw [hLq, hstm_queue]
            exact fun n hn => Or.inl hn

/-- In no-depends mode the loop over requested packages only adds names of
requested packages to the queue. -/
theorem process_roots_nd_names (env : Env) (ctx : Context)
    (pkgnames : List String) (arch? : Option String) (fallback_arch : String)
    (force : Bool) (fuel : Nat)
    (hwf : WellFormedAports env) (hnd : ctx.no_depends = true) :
    ∀ (roots : List String) (st : BuildState) (acc : List String),
      ∀ n ∈ queue_names (out_state (process_roots env ctx pkgnames arch?
          fallback_arch force fuel st acc roots)).build_queue,
        n ∈ queue_names st.build_queue ∨ n ∈ roots := by
  intro roots
  induction roots with
  | nil =>
    intro st acc n hn
    exact Or.inl hn
  | cons p rest ih =>
    intro st acc n hn
    cases hp : process_package env ctx pkgnames fuel st p arch? fallback_arch force with
    | error es =>
      have hstep : process_roots env ctx pkgnames arch? fallback_arch force fuel st acc
          (p :: rest) = Except.error es := by simp [process_roots, hp]
      rw [hstep] at hn
      have h1 := process_package_nd_names env ctx pkgnames fuel st p arch?
        fallback_arch force hwf hnd n (by rw [hp]; exact hn)
      rcases h1 with h1 | h1
      · exact Or.inl h1
      · exact Or.inr (by rw [h1]; exact List.mem_cons_self p rest)
    | ok stp =>
      obtain ⟨st1, deps⟩ := stp
      have hstep : process_roots env ctx pkgnames arch? fallback_arch force fuel st acc
          (p :: rest) = process_roots env ctx pkgnames arch? fallback_arch force fuel
          st1 (acc ++ deps) rest := by simp [process_roots, hp]
      rw [hstep] at hn
      rcases ih st1 (acc ++ deps) n hn with h1 | h1
      · have h2 := process_package_nd_names env ctx pkgnames fuel st p arch?
          fallback_arch force hwf hnd n (by rw [hp]; exact h1)
        rcases h2 with h2 | h2
        · exact Or.inl h2
        · exact Or.inr (by rw [h2]; exact List.mem_cons_self p rest)
      · exact Or.inr (List.mem_cons_of_mem p h1)

/-- C7, counterexample: in no-depends mode, the dependency ghost of a has
neither an APKBUILD nor a binary package, yet `packages()` returns
normally having queued only a — the missing dependency binary raises no
error and the dependency is skipped silently. -/
theorem c7_counterexample :
    ctx_nd.no_depends = true ∧
    ("ghost" ∈ get_depends ctx_nd (apkb "a" ["ghost"])) ∧
    get_apkbuild ghost_env "ghost" = none ∧
    ghost_env.binary_version "ghost" "x86_64" = none ∧
    (packages ghost_env ctx_nd 100 [] ["a"] none false false).result
      = Except.ok ["a"] ∧
    (packages ghost_env ctx_nd 100 [] ["a"] none false false).queue_names = ["a"] :=
  ⟨by decide, by decide, by decide, by decide, by decide, by decide⟩

/-- C7, amended: in no-depends mode the walker enqueues no dependency (only
requested packages can appear in the queue), and when it first visits a
dependency that resolves to a package definition it raises
immediately — MissingDependencyBinary if that dependency has no binary
package, OutdatedDependencyBinary if the binary exists but is outdated;
a dependency without a package definition, or one already visited, is
skipped silently. -/
theorem c7_no_depends_policy :
    (∀ (env : Env) (ctx : Context) (fuel : Nat) (cache0 : List (String × String))
       (pkgnames : List String) (arch? : Option String) (force src : Bool),
      WellFormedAports env → ctx.no_depends = true →
      ∀ n ∈ (packages env ctx fuel cache0 pkgnames arch? force src).queue_names,
        n ∈ pkgnames) ∧
    (∀ (env : Env) (ctx : Context) (pkgnames : List String) (arch? : Option String)
       (wbb : Bool) (arch : String) (fuel : Nat) (st : BuildState)
       (parent dep : String) (rest : List String) (apkbuild : Apkbuild),
      ctx.no_depends = true →
      (arch, remove_operators dep) ∉ st.cache →
      get_apkbuild env dep = some apkbuild →
      env.binary_version dep
        (if env.crosscompile apkbuild arch = some "native" then env.native_arch
         else arch) = none →
      dep_loop env ctx pkgnames arch? wbb arch (fuel + 1) st parent (dep :: rest)
        = Except.error (Err.missingBinary dep parent, marked st arch dep)) ∧
    (∀ (env : Env) (ctx : Context) (pkgnames : List String) (arch? : Option String)
       (wbb : Bool) (arch : String) (fuel : Nat) (st : BuildState)
       (parent dep : String) (rest : List String) (apkbuild : Apkbuild) (v : String),
      ctx.no_depends = true →
      (arch, remove_operators dep) ∉ st.cache →
      get_apkbuild env dep = some apkbuild →
      env.binary_version dep
        (if env.crosscompile apkbuild arch = some "native" then env.native_arch
         else arch) = some v →
      is_necessary env arch apkbuild = true →
      dep_loop env ctx pkgnames arch? wbb arch (fuel + 1) st parent (dep :: rest)
        = Except.error (Err.outdatedBinary dep parent, marked st arch dep)) := by
  refine ⟨?_, dep_loop_nd_missing, dep_loop_nd_outdated⟩
  intro env ctx fuel cache0 pkgnames arch? force src hwf hnd n hn
  rcases packages_cases env ctx fuel cache0 pkgnames arch? force src with
    ⟨_, hpkg⟩ | ⟨_, hcase⟩
  · rw [hpkg] at hn; cases hn
  · rcases hcase with ⟨_, _, hpkg⟩ | ⟨fb, hfb, hcase⟩
    · rw [hpkg] at hn; cases hn
    · have hroots := process_roots_nd_names env ctx pkgnames arch? fb force fuel hwf
        hnd pkgnames { cache := cache0, build_queue := [], built_packages := [] } []
      rcases hcase with ⟨e, st1, hroots_eq, hpkg⟩ | ⟨st1, acc, hroots_eq, hcase⟩
      · rw [hpkg] at hn
        rcases hroots n (by rw [hroots_eq]; exact hn) with h1 | h1
        · cases h1
        · exact h1
      · rcases hcase with ⟨hq, hpkg⟩ | ⟨hq, hcase⟩
        · rw [hpkg] at hn; cases hn
        · rcases hcase with ⟨trace, e, hrun, hpkg⟩ | ⟨trace, hrun, hpkg⟩
          · rw [hpkg] at hn
            rcases hroots n (by rw [hroots_eq]; exact hn) with h1 | h1
            · cases h1
            · exact h1
          · rw [hpkg] at hn
            rcases hroots n (by rw [hroots_eq]; exact hn) with h1 | h1
            · cases h1
            · exact h1

theorem c7_witness :
    ((packages nd_env ctx_nd 100 [] ["a"] none false false).result
      = Except.error (Err.missingBinary "b" "a")) ∧
    (dep_loop nd_env ctx_nd ["a"] none true "x86_64" (9 + 1) st_empty "a" ["b"]
      = Except.error (Err.missingBinary "b" "a", marked st_empty "x86_64" "b")) :=
  ⟨by decide,
    c7_no_depends_policy.2.1 nd_env ctx_nd ["a"] none true "x86_64" 9 st_empty
      "a" "b" [] (apkb "b" []) (by decide) (by decide) (by decide) (by decide)⟩

theorem mem_cached_names (arch x : String) (cache : List (String × String)) :
    x ∈ cached_names arch cache ↔ (arch, x) ∈ cache := by
  unfold cached_names
  rw [List.mem_toFinset, List.mem_map]
  constructor
  · rintro ⟨e, he, hx⟩
    have hf := List.mem_filter.mp he
    have h1 : e.1 = arch := by simpa using hf.2
    have : e = (arch, x) := by
      cases e
      simp only at h1 hx
      rw [h1, hx]
    rw [← this]
    exact hf.1
  · intro hm
    exact ⟨(arch, x), List.mem_filter.mpr ⟨hm, by simp⟩, rfl⟩

theorem cached_names_mark (arch sdep : String) (cache : List (String × String)) :
    cached_names arch (cache ++ [(arch, sdep)])
      = cached_names arch cache ∪ {sdep} := by
  unfold cached_names
  rw [List.filter_append, List.map_append, List.toFinset_append]
  congr 1
  simp

theorem strippedF_append (a b : List String) :
    strippedF (a ++ b) = strippedF a ∪ strippedF b := by
  unfold strippedF
  rw [List.map_append, List.toFinset_append]

theorem strippedF_cons (x : String) (l : List String) :
    strippedF (x :: l) = insert (remove_operators x) (strippedF l) := by
  unfold strippedF
  rw [List.map_cons, List.toFinset_cons]

theorem pool_foldr_mem (ctx : Context) :
    ∀ (l : List (String × Apkbuild)) (p : String × Apkbuild), p ∈ l →
      strippedF (get_depends ctx p.2) ⊆
        l.foldr (fun q acc => strippedF (get_depends ctx q.2) ∪ acc) ∅ := by
  intro l
  induction l with
  | nil => intro p hp; cases hp
  | cons q rest ih =>
    intro p hp
    rcases List.mem_cons.mp hp with he | hm
    · rw [he]
      exact Finset.subset_union_left
    · exact (ih p hm).trans Finset.subset_union_right

theorem max_foldr_le (ctx : Context) :
    ∀ (l : List (String × Apkbuild)) (p : String × Apkbuild), p ∈ l →
      (get_depends ctx p.2).length ≤
        l.foldr (fun q acc => max (get_depends ctx q.2).length acc) 0 := by
  intro l
  induction l with
  | nil => intro p hp; cases hp
  | cons q rest ih =>
    intro p hp
    rcases List.mem_cons.mp hp with he | hm
    · rw [he]
      exact Nat.le_max_left _ _
    · exact (ih p hm).trans (Nat.le_max_right _ _)

theorem get_apkbuild_mem (env : Env) (dep : String) (a : Apkbuild)
    (h : get_apkbuild env dep = some a) : ∃ p ∈ env.pmaports, p.2 = a := by
  unfold get_apkbuild at h
  cases hf : env.pmaports.find? (fun p => p.1 == dep) with
  | none => rw [hf] at h; cases h
  | some p =>
    rw [hf] at h
    simp only [Option.map_some', Option.some.injEq] at h
    exact ⟨p, List.mem_of_find?_eq_some hf, h⟩

theorem env_pool_resolved (env : Env) (ctx : Context) (dep : String) (a : Apkbuild)
    (h : get_apkbuild env dep = some a) :
    strippedF (get_depends ctx a) ⊆ env_pool env ctx := by
  obtain ⟨p, hp, hpa⟩ := get_apkbuild_mem env dep a h
  have := pool_foldr_mem ctx env.pmaports p hp
  rw [hpa] at this
  exact this

theorem max_deps_resolved (env : Env) (ctx : Context) (dep : String) (a : Apkbuild)
    (h : get_apkbuild env dep = some a) :
    (get_depends ctx a).length ≤ max_deps env ctx := by
  obtain ⟨p, hp, hpa⟩ := get_apkbuild_mem env dep a h
  have := max_foldr_le ctx env.pmaports p hp
  rw [hpa] at this
  exact this

/-- The worklist loop keeps the session cache duplicate-free: a pair is
appended only when it is not yet present. -/
theorem dep_loop_cache_nodup (env : Env) (ctx : Context) (pkgnames : List String)
    (arch? : Option String) (wbb : Bool) (arch : String) :
    ∀ (fuel : Nat) (st : BuildState) (parent : String) (work : List String),
      st.cache.Nodup →
      (out_state (dep_loop env ctx pkgnames arch? wbb arch fuel st parent
        work)).cache.Nodup := by
  intro fuel
  induction fuel with
  | zero => intro st parent work h; exact h
  | succ f ih =>
    intro st parent work h
    cases work with
    | nil => exact h
    | cons dep rest =>
      rcases dep_loop_cons_cases env ctx pkgnames arch? wbb arch f st parent dep rest with
        ⟨_, hL⟩ | ⟨hc, hcase⟩
      · rw [hL]; exact ih st parent rest h
      · have hm : (marked st arch dep).cache.Nodup := by
          simp only [marked]
          rw [List.nodup_append]
          exact ⟨h, List.nodup_singleton _, by simpa using hc⟩
        rcases hcase with ⟨_, hL⟩ | ⟨apkbuild, _, hcase⟩
        · rw [hL]; exact ih (marked st arch dep) parent rest hm
        · rcases hcase with ⟨_, herr | hL⟩ | ⟨_, hcase⟩
          · rcases herr with ⟨e, _, hL⟩
            rw [hL]
            exact hm
          · rw [hL]; exact ih (marked st arch dep) parent rest hm
          · rcases hcase with ⟨_, hL⟩ | ⟨_, hL⟩
            · rw [hL]; exact ih (marked st arch dep) parent rest hm
            · rw [hL]
              by_cases hw : wbb = true
              · rw [if_pos hw]
                refine ih _ dep (get_depends ctx apkbuild ++ rest) ?_
                rw [queue_build_cache]
                exact hm
              · rw [if_neg hw]
                exact ih (marked st arch dep) dep (get_depends ctx apkbuild ++ rest) hm

theorem dep_measure_tail (env : Env) (ctx : Context) (arch : String)
    (cache cache2 : List (String × String)) (dep : String) (rest : List String)
    (hc : cached_names arch cache ⊆ cached_names arch cache2)
    (hp : strippedF rest ⊆ strippedF (dep :: rest)) :
    dep_measure env ctx arch cache2 rest + 1
      ≤ dep_measure env ctx arch cache (dep :: rest) := by
  unfold dep_measure
  have hcard : ((strippedF rest ∪ env_pool env ctx) \ cached_names arch cache2).card
      ≤ ((strippedF (dep :: rest) ∪ env_pool env ctx) \ cached_names arch cache).card :=
    Finset.card_le_card
      (Finset.sdiff_subset_sdiff (Finset.union_subset_union_left hp) hc)
  have hm := Nat.mul_le_mul_right (max_deps env ctx + 1) hcard
  simp only [List.length_cons]
  omega

theorem dep_measure_splice (env : Env) (ctx : Context) (arch : String)
    (cache : List (String × String)) (dep : String) (rest : List String)
    (apkbuild : Apkbuild)
    (hga : get_apkbuild env dep = some apkbuild)
    (hc : (arch, remove_operators dep) ∉ cache) :
    dep_measure env ctx arch (cache ++ [(arch, remove_operators dep)])
        (get_depends ctx apkbuild ++ rest) + 1
      ≤ dep_measure env ctx arch cache (dep :: rest) := by
  unfold dep_measure
  set K := max_deps env ctx + 1 with hK
  set P := strippedF (dep :: rest) ∪ env_pool env ctx with hP
  set C := cached_names arch cache with hC
  have hsdep_P : remove_operators dep ∈ P := by
    rw [hP, strippedF_cons]
    exact Finset.mem_union_left _ (Finset.mem_insert_self _ _)
  have hsdep_C : remove_operators dep ∉ C := by
    rw [hC, mem_cached_names]
    exact hc
  have hpool : strippedF (get_depends ctx apkbuild ++ rest) ∪ env_pool env ctx ⊆ P := by
    rw [strippedF_append, hP]
    intro x hx
    rcases Finset.mem_union.mp hx with hx | hx
    · rcases Finset.mem_union.mp hx with hx | hx
      · exact Finset.mem_union_right _ (env_pool_resolved env ctx dep apkbuild hga hx)
      · refine Finset.mem_union_left _ ?_
        rw [strippedF_cons]
        exact Finset.mem_insert_of_mem hx
    · exact Finset.mem_union_right _ hx
  have hcache : cached_names arch (cache ++ [(arch, remove_operators dep)])
      = C ∪ {remove_operators dep} := cached_names_mark arch (remove_operators dep) cache
  have hcard : ((strippedF (get_depends ctx apkbuild ++ rest) ∪ env_pool env ctx)
        \ cached_names arch (cache ++ [(arch, remove_operators dep)])).card + 1
      ≤ (P \ C).card := by
    rw [hcache]
    have h1 : (strippedF (get_depends ctx apkbuild ++ rest) ∪ env_pool env ctx)
        \ (C ∪ {remove_operators dep}) ⊆ P \ (C ∪ {remove_operators dep}) :=
      Finset.sdiff_subset_sdiff hpool (le_refl _)
    have h2 : P \ (C ∪ {remove_operators dep}) = (P \ C).erase (remove_operators dep) := by
      ext y
      simp only [Finset.mem_sdiff, Finset.mem_erase, Finset.mem_union,
        Finset.mem_singleton]
      tauto
    have h3 := Finset.card_le_card h1
    rw [h2] at h3
    have h4 : ((P \ C).erase (remove_operators dep)).card = (P \ C).card - 1 :=
      Finset.card_erase_of_mem (Finset.mem_sdiff.mpr ⟨hsdep_P, hsdep_C⟩)
    have h5 : 1 ≤ (P \ C).card :=
      Finset.card_pos.mpr ⟨remove_operators dep, Finset.mem_sdiff.mpr ⟨hsdep_P, hsdep_C⟩⟩
    omega
  have hlen : (get_depends ctx apkbuild).length + 1 ≤ K := by
    rw [hK]
    exact Nat.succ_le_succ (max_deps_resolved env ctx dep apkbuild hga)
  set c2 := ((strippedF (get_depends ctx apkbuild ++ rest) ∪ env_pool env ctx)
    \ cached_names arch (cache ++ [(arch, remove_operators dep)])).card with hc2
  have hstep : c2 * K + K ≤ (P \ C).card * K := by
    have : (c2 + 1) * K ≤ (P \ C).card * K := Nat.mul_le_mul_right K hcard
    calc c2 * K + K = (c2 + 1) * K := by ring
    _ ≤ (P \ C).card * K := this
  have hlen2 : (get_depends ctx apkbuild ++ rest).length
      = (get_depends ctx apkbuild).length + rest.length := List.length_append _ _
  simp only [List.length_cons]
  rw [hlen2]
  have : c2 * K + ((get_depends ctx apkbuild).length + 1) ≤ (P \ C).card * K := by
    calc c2 * K + ((get_depends ctx apkbuild).length + 1)
        ≤ c2 * K + K := Nat.add_le_add_left hlen _
    _ ≤ (P \ C).card * K := hstep
  omega

/-- With enough fuel the worklist loop never runs out: every splice first
marks a fresh name in the session cache, and only finitely many names can
ever be marked. -/
theorem dep_loop_no_fuel_out (env : Env) (ctx : Context) (pkgnames : List String)
    (arch? : Option String) (wbb : Bool) (arch : String) :
    ∀ (fuel : Nat) (st : BuildState) (parent : String) (work : List String),
      dep_measure env ctx arch st.cache work < fuel →
      is_fuel_out (dep_loop env ctx pkgnames arch? wbb arch fuel st parent work)
        = false := by
  intro fuel
  induction fuel with
  | zero => intro st parent work h; exact absurd h (Nat.not_lt_zero _)
  | succ f ih =>
    intro st parent work hf
    cases work with
    | nil => rfl
    | cons dep rest =>
      have hf2 : dep_measure env ctx arch st.cache (dep :: rest) ≤ f :=
        Nat.lt_succ_iff.mp hf
      rcases dep_loop_cons_cases env ctx pkgnames arch? wbb arch f st parent dep rest with
        ⟨hc, hL⟩ | ⟨hc, hcase⟩
      · rw [hL]
        apply ih
        have := dep_measure_tail env ctx arch st.cache st.cache dep rest (le_refl _)
          (by rw [strippedF_cons]; exact Finset.subset_insert _ _)
        omega
      · have hmono : cached_names arch st.cache ⊆
            cached_names arch (st.cache ++ [(arch, remove_operators dep)]) := by
          rw [cached_names_mark]
          exact Finset.subset_union_left
        have hmark := dep_measure_tail env ctx arch st.cache
          (st.cache ++ [(arch, remove_operators dep)]) dep rest hmono
          (by rw [strippedF_cons]; exact Finset.subset_insert _ _)
        rcases hcase with ⟨_, hL⟩ | ⟨apkbuild, hga, hcase⟩
        · rw [hL]
          apply ih
          simp only [marked]
          omega
        · rcases hcase with ⟨_, herr | hL⟩ | ⟨_, hcase⟩
          · rcases herr with ⟨e, he, hL⟩
            rw [hL]
            rcases he with he | he <;> rw [he] <;> rfl
          · rw [hL]
            apply ih
            simp only [marked]
            omega
          · rcases hcase with ⟨_, hL⟩ | ⟨_, hL⟩
            · rw [hL]
              apply ih
              simp only [marked]
              omega
            · rw [hL]
              have hspl := dep_measure_splice env ctx arch st.cache dep rest apkbuild
                hga hc
              by_cases hw : wbb = true
              · rw [if_pos hw]
                apply ih
                rw [queue_build_cache]
                simp only [marked]
                omega
              · rw [if_neg hw]
                apply ih
                simp only [marked]
                omega

theorem wbb_except_no_fuel_out (env : Env) (pkgname arch : String)
    (base : Apkbuild) (force : Bool) (e : Err)
    (h : wbb_except env pkgname arch base force = Except.error e) :
    e ≠ Err.fuelOut := by
  unfold wbb_except at h
  by_cases hcond : (is_necessary env arch base || force) = true
  · rw [if_pos hcond] at h
    unfold check_build_for_arch at h
    cases hga : get_apkbuild env pkgname with
    | none =>
      rw [hga] at h
      dsimp only at h
      injection h with h1
      rw [← h1]
      intro hcontra
      cases hcontra
    | some a =>
      rw [hga] at h
      dsimp only at h
      by_cases ha : check_arches a.arch arch = true
      · rw [if_pos ha] at h
        cases h
      · rw [if_neg ha] at h
        by_cases hb : (env.binary_version pkgname arch).isSome = true
        · rw [if_pos hb] at h
          cases h
        · rw [if_neg hb] at h
          injection h with h1
          rw [← h1]
          intro hcontra
          cases hcontra
  · rw [if_neg hcond] at h
    cases h

theorem entry_measure_lt (env : Env) (ctx : Context) (arch : String)
    (cache : List (String × String)) (pkgname : String) (base : Apkbuild)
    (hga : get_apkbuild env pkgname = some base) :
    dep_measure env ctx arch cache (get_depends ctx base) < enough_fuel env ctx := by
  unfold dep_measure enough_fuel
  have hsub : strippedF (get_depends ctx base) ⊆ env_pool env ctx :=
    env_pool_resolved env ctx pkgname base hga
  have hunion : strippedF (get_depends ctx base) ∪ env_pool env ctx
      = env_pool env ctx := Finset.union_eq_right.mpr hsub
  rw [hunion]
  have hcard : ((env_pool env ctx) \ cached_names arch cache).card
      ≤ (env_pool env ctx).card :=
    Finset.card_le_card (Finset.sdiff_subset)
  have hlen : (get_depends ctx base).length ≤ max_deps env ctx :=
    max_deps_resolved env ctx pkgname base hga
  have hm := Nat.mul_le_mul_right (max_deps env ctx + 1) hcard
  set cp := (env_pool env ctx).card
  set d := max_deps env ctx
  calc ((env_pool env ctx) \ cached_names arch cache).card * (d + 1)
        + (get_depends ctx base).length
      ≤ cp * (d + 1) + d := Nat.add_le_add hm hlen
  _ < cp * (d + 1) + (d + 1) := by omega
  _ = (cp + 1) * (d + 1) := by ring
  _ < (cp + 1) * (d + 1) + 1 := Nat.lt_succ_self _

/-- With enough fuel `process_package` never exhausts its fuel: the
embedded loop always reaches one of the source's real outcomes. -/
theorem process_package_no_fuel_out (env : Env) (ctx : Context)
    (pkgnames : List String) (fuel : Nat) (st : BuildState) (pkgname : String)
    (arch? : Option String) (fallback_arch : String) (force : Bool)
    (hfuel : enough_fuel env ctx ≤ fuel) :
    is_fuel_out (process_package env ctx pkgnames fuel st pkgname arch?
      fallback_arch force) = false := by
  rcases process_package_cases env ctx pkgnames fuel st pkgname arch? fallback_arch force with
    ⟨_, _, hp⟩ | ⟨_, _, hp⟩ | ⟨base, arch, hga, harch, hcase⟩
  · rw [hp]; rfl
  · rw [hp]; rfl
  · rcases hcase with ⟨_, _, hp⟩ | ⟨stm, hstm, hcase⟩
    · rw [hp]; rfl
    · rcases hcase with ⟨e, hwe, hp⟩ | ⟨wbb, hwe, hcase⟩
      · rw [hp]
        have hne := wbb_except_no_fuel_out env pkgname arch base force e hwe
        unfold is_fuel_out
        cases e <;> first | rfl | exact absurd rfl hne
      · have hlt : dep_measure env ctx arch stm.cache (get_depends ctx base) < fuel :=
          lt_of_lt_of_le (entry_measure_lt env ctx arch stm.cache pkgname base hga) hfuel
        have hnf := dep_loop_no_fuel_out env ctx pkgnames arch? wbb arch fuel stm
          pkgname (get_depends ctx base) hlt
        rcases hcase with ⟨es, hdl, hp⟩ | ⟨stL, depsL, hdl, hp⟩
        · rw [hp]
          rw [hdl] at hnf
          exact hnf
        · rw [hp]; rfl

/-- `process_package` keeps the session cache duplicate-free. -/
theorem process_package_cache_nodup (env : Env) (ctx : Context)
    (pkgnames : List String) (fuel : Nat) (st : BuildState) (pkgname : String)
    (arch? : Option String) (fallback_arch : String) (force : Bool)
    (h : st.cache.Nodup) :
    (out_state (process_package env ctx pkgnames fuel st pkgname arch?
      fallback_arch force)).cache.Nodup := by
  rcases process_package_cases env ctx pkgnames fuel st pkgname arch? fallback_arch force with
    ⟨_, _, hp⟩ | ⟨_, _, hp⟩ | ⟨base, arch, hga, harch, hcase⟩
  · rw [hp]; exact h
  · rw [hp]; exact h
  · rcases hcase with ⟨_, _, hp⟩ | ⟨stm, hstm, hcase⟩
    · rw [hp]; exact h
    · have hstm_nodup : stm.cache.Nodup := by
        rw [hstm]
        by_cases hcc : (arch, pkgname) ∈ st.cache
        · simp only [is_cached_or_cache, if_pos hcc]
          exact h
        · simp only [is_cached_or_cache, if_neg hcc]
          rw [List.nodup_append]
          exact ⟨h, List.nodup_singleton _, by simpa using hcc⟩
      rcases hcase with ⟨e, hwe, hp⟩ | ⟨wbb, hwe, hcase⟩
      · rw [hp]
        exact hstm_nodup
      · have hL := dep_loop_cache_nodup env ctx pkgnames arch? wbb arch fuel stm
          pkgname (get_depends ctx base) hstm_nodup
        rcases hcase with ⟨es, hdl, hp⟩ | ⟨stL, depsL, hdl, hp⟩
        · rw [hp]
          rw [hdl] at hL
          exact hL
        · rw [hp]
          rw [hdl] at hL
          simp only [out_state] at hL ⊢
          by_cases hw : wbb = true
          · rw [if_pos hw]
            rw [queue_build_cache]
            exact hL
          · rw [if_neg hw]
            exact hL

/-- C3: dependency expansion terminates even on cyclic graphs, and each
(arch, pkgname) pair is decided at most once per invocation: with enough
fuel the embedded `process_package` never hits the artificial fuel bound
(the Python loop always reaches one of its real outcomes, because every
splice first marks a fresh name in the finite session-cache name space),
the session cache never acquires a duplicate entry (so no pair is decided
twice), and the cache only grows by appending (a pair is marked before its
dependencies are expanded and never unmarked). -/
theorem c3_cycle_safety (env : Env) (ctx : Context) (pkgnames : List String)
    (fuel : Nat) (st : BuildState) (pkgname : String) (arch? : Option String)
    (fallback_arch : String) (force : Bool)
    (hfuel : enough_fuel env ctx ≤ fuel)
    (hnodup : st.cache.Nodup) :
    is_fuel_out (process_package env ctx pkgnames fuel st pkgname arch?
      fallback_arch force) = false ∧
    (out_state (process_package env ctx pkgnames fuel st pkgname arch?
      fallback_arch force)).cache.Nodup ∧
    (∃ ext, (out_state (process_package env ctx pkgnames fuel st pkgname arch?
      fallback_arch force)).cache = st.cache ++ ext) :=
  ⟨process_package_no_fuel_out env ctx pkgnames fuel st pkgname arch? fallback_arch
      force hfuel,
    process_package_cache_nodup env ctx pkgnames fuel st pkgname arch? fallback_arch
      force hnodup,
    (process_package_state env ctx pkgnames fuel st pkgname arch? fallback_arch
      force).1⟩

theorem c3_witness :
    (enough_fuel cyc_env ctx0 ≤ 100 ∧ ([] : List (String × String)).Nodup) ∧
    (is_fuel_out (process_package cyc_env ctx0 ["x"] 100 st_empty "x" none
      "x86_64" false) = false ∧
    (out_state (process_package cyc_env ctx0 ["x"] 100 st_empty "x" none "x86_64"
      false)).cache.Nodup ∧
    (∃ ext, (out_state (process_package cyc_env ctx0 ["x"] 100 st_empty "x" none
      "x86_64" false)).cache = st_empty.cache ++ ext)) :=
  ⟨⟨by decide, by decide⟩,
    c3_cycle_safety cyc_env ctx0 ["x"] 100 st_empty "x" none "x86_64" false
      (by decide) (by decide)⟩

/-- C10: an architecture list containing the negated entry for `arch`
makes `check_arches` return False no matter what positive entries (the
arch itself, all, noarch) it also contains. -/
theorem c10_negated_arch_wins (arches : List String) (arch : String)
    (h : ("!" ++ arch) ∈ arches) : check_arches arches arch = false := by
  simp [check_arches, h]

theorem c10_witness :
    (("!" ++ "x86") ∈ (["all", "noarch", "x86", "!x86"] : List String)) ∧
    check_arches ["all", "noarch", "x86", "!x86"] ("x86") = false :=
  ⟨by decide, c10_negated_arch_wins (["all", "noarch", "x86", "!x86"]) ("x86") (by decide)⟩

/-- C8, counterexample: for a package whose makedepends holds the conflict
entry !c, the computed dependency list is empty, while the claim's formula
(union, deduplicated, sorted, self-names removed — with no clause about
`!`-prefixed entries) yields the conflict entry: the claim as stated does
not match `get_depends`. -/
theorem c8_counterexample :
    get_depends ctx0 bang_apkb = [] ∧
    get_depends_claimed ctx0 bang_apkb = ["!c"] ∧
    get_depends ctx0 bang_apkb ≠ get_depends_claimed ctx0 bang_apkb := by
  refine ⟨by decide, by decide, by decide⟩

/-- C8, amended: the computed dependency list equals the claim's formula
(union of makedepends, checkdepends without !check, depends without
dependency-ignoring mode; deduplicated, sorted, self and subpackage names
removed) with additionally every entry beginning with `!` (a conflict,
not a dependency) removed. -/
theorem c8_depends_formula (ctx : Context) (a : Apkbuild) :
    get_depends ctx a =
      (get_depends_claimed ctx a).filter (fun x => !(starts_with x "!")) := by
  unfold get_depends get_depends_claimed
  dsimp only
  have hu : (if ("!check" : String) ∈ a.options then a.makedepends
        else a.makedepends ++ a.checkdepends)
      = a.makedepends ++ (if ("!check" : String) ∈ a.options then []
        else a.checkdepends) := by
    by_cases h : ("!check" : String) ∈ a.options <;> simp [h]
  have hv : ∀ l : List String, (if ctx.ignore_depends then l else l ++ a.depends)
      = l ++ (if ctx.ignore_depends then [] else a.depends) := by
    intro l
    by_cases h : ctx.ignore_depends <;> simp [h]
  rw [hu, hv, List.append_assoc]
  rw [foldl_erase_eq_filter _ _ (dedup_sort_nodup _), List.filter_filter]

end Pmb
